import Mathlib

/-!
Verification of the OtterLang compiler and runtime against its
natural-language specification.

The development shallowly embeds the relevant parts of the Rust sources:

* `src/cache/manager.rs` / `src/cache/metadata.rs` — content-addressed
  compilation cache (fingerprinting, lookup, YAML metadata parsing);
* `src/lexer/tokenizer.rs` — the indentation-sensitive lexer;
* `src/parser/grammar.rs` — f-string parsing, numeric-literal
  construction, assignment desugaring;
* `src/runtime/task/{metrics,channel,scheduler}.rs` — the task runtime,
  modelled as explicit state passing and a small-step transition relation.

Machine integers are modelled as `Nat`/`Int` with explicit wrapping where
the Rust code uses wrapping machine arithmetic.  External libraries
(SHA-1, crossbeam channels and deques) are modelled from their documented
semantics, as noted at each definition.
-/

/-! ## Cache model (src/cache/manager.rs, src/cache/metadata.rs) -/

/-- A canonical filesystem path, modelled as its byte sequence.  `PathBuf`
ordering is modelled by the lexicographic order on the bytes; the theorems
proved below depend only on this being a total order. -/
abbrev FsPath := List Nat

/-- Lexicographic byte order on paths (models the `Ord` used by
`Vec::<PathBuf>::sort`). -/
def pathLe : FsPath → FsPath → Bool
  | [], _ => true
  | _ :: _, [] => false
  | a :: as, b :: bs => if a < b then true else if b < a then false else pathLe as bs

/-- Build options of the compilation cache (`CacheBuildOptions` in
`src/cache/metadata.rs`). -/
structure CacheBuildOptions where
  release : Bool
  lto : Bool
  emit_ir : Bool
deriving DecidableEq, Repr

/-- The stable text rendering of the build options
(`CacheBuildOptions::fingerprint`). -/
def CacheBuildOptions.fingerprint (o : CacheBuildOptions) : String :=
  "release=" ++ toString o.release ++ "::lto=" ++ toString o.lto ++
    "::emit_ir=" ++ toString o.emit_ir

/-- Compilation inputs: a primary source path plus imported paths
(`CompilationInputs` in `src/cache/manager.rs`). -/
structure CompilationInputs where
  primary : FsPath
  imports : List FsPath

/-- All input files, primary first (`CompilationInputs::all_files`). -/
def CompilationInputs.all_files (i : CompilationInputs) : List FsPath :=
  i.primary :: i.imports

/-- Tail of `Vec::dedup`: drops every element equal to its predecessor,
keeping the first element of each run (`prev` is the last kept element). -/
def dedupAdjAux (prev : FsPath) : List FsPath → List FsPath
  | [] => []
  | b :: rest => if prev = b then dedupAdjAux prev rest else b :: dedupAdjAux b rest

/-- Removal of consecutive duplicates, as performed by `Vec::dedup` (after
a sort this deduplicates completely). -/
def dedupAdj : List FsPath → List FsPath
  | [] => []
  | a :: rest => a :: dedupAdjAux a rest

instance pathLeDecidableRel : DecidableRel (fun a b => pathLe a b = true) :=
  fun a b => inferInstanceAs (Decidable (pathLe a b = true))

/-- Sorting of the canonicalized input list (`files.sort()`); the result is
the unique `pathLe`-sorted permutation, so any correct sorting algorithm
models `Vec::sort`. -/
def sortFiles (l : List FsPath) : List FsPath :=
  List.insertionSort (fun a b => pathLe a b = true) l

/-- UTF-8 bytes of a string; the strings fed to the hasher here are ASCII,
where code points and UTF-8 bytes coincide. -/
def strBytes (s : String) : List Nat := s.data.map Char.toNat

/-- SHA-1 digest of a byte sequence.  The external `sha1` crate is modelled
by the raw byte stream itself: every theorem proved about fingerprints
depends only on the digest being a deterministic function of its input, so
equality facts transfer to the real hex digests. -/
def sha1Digest (data : List Nat) : List Nat := data

/-- Cache key: modelled as the byte stream fed into the rolling SHA-1 (the
`hasher.update` calls concatenated, in order).  Hex-encoding the finalized
hash is a function of this stream, so equality of streams decides equality
of the hex `CacheKey` strings of the source. -/
abbrev CacheKey := List Nat

/-- Filesystem environment seen by `CacheManager::fingerprint`:
`fs::canonicalize` and `fs::read` (of the canonicalized path), both
fallible. -/
structure FpEnv where
  canon : FsPath → Option FsPath
  contents : FsPath → Option (List Nat)

/-- Sequencing of `map(canonicalise).collect::<Result<Vec<_>>>()`. -/
def collectCanon (canon : FsPath → Option FsPath) : List FsPath → Option (List FsPath)
  | [] => some []
  | p :: rest =>
    match canon p with
    | none => none
    | some q =>
      match collectCanon canon rest with
      | none => none
      | some qs => some (q :: qs)

/-- Sequencing of `files.par_iter().map(hash_file).collect::<Result<_>>()`:
each file is read and digested, keeping `(path, digest)` pairs in list
order (the parallel map preserves order). -/
def collectHashes (contents : FsPath → Option (List Nat)) :
    List FsPath → Option (List (FsPath × List Nat))
  | [] => some []
  | p :: rest =>
    match contents p with
    | none => none
    | some data =>
      match collectHashes contents rest with
      | none => none
      | some hs => some ((p, sha1Digest data) :: hs)

/-- `CacheManager::fingerprint` (src/cache/manager.rs): canonicalize all
input paths, sort, dedup, hash every file, then feed `(path, digest)`
pairs, the options fingerprint and the compiler version into a rolling
SHA-1. -/
def CacheManager.fingerprint (env : FpEnv) (inputs : CompilationInputs)
    (options : CacheBuildOptions) (compiler_version : String) : Option CacheKey :=
  (collectCanon env.canon inputs.all_files).bind (fun files0 =>
    (collectHashes env.contents (dedupAdj (sortFiles files0))).bind (fun file_hashes =>
      some ((file_hashes.foldl (fun acc ph => acc ++ ph.1 ++ ph.2) []) ++
        strBytes options.fingerprint ++ strBytes compiler_version)))

/-- Scalar values of the YAML metadata document. -/
inductive YamlValue where
  | str (s : String)
  | nat (n : Nat)
  | path (p : FsPath)
  | paths (ps : List FsPath)
  | strs (ss : List String)
  | opts (o : CacheBuildOptions)
deriving DecidableEq

/-- A YAML mapping, as a sequence of field-name/value pairs. -/
abbrev YamlDoc := List (String × YamlValue)

/-- Field access in a YAML mapping. -/
def yamlGet (doc : YamlDoc) (name : String) : Option YamlValue :=
  (doc.find? (fun kv => kv.1 = name)).map (fun kv => kv.2)

/-- Errors of serde-style deserialization. -/
inductive YamlError where
  | missingField (name : String)
  | wrongType (name : String)
deriving DecidableEq

deriving instance DecidableEq for Except

/-- The metadata record stored next to each artifact (`CacheMetadata` in
src/cache/metadata.rs); `created_at` is kept as its textual rendering. -/
structure CacheMetadata where
  key : String
  created_at : String
  compiler_version : String
  llvm_version : Option String
  source : FsPath
  imports : List FsPath
  binary_path : FsPath
  binary_size : Nat
  build_time_ms : Nat
  options : CacheBuildOptions
  linked_crates : List String
deriving DecidableEq

/-- Required `String` field (serde: absent required field is an error). -/
def fieldStr (doc : YamlDoc) (name : String) : Except YamlError String :=
  match yamlGet doc name with
  | some (.str s) => .ok s
  | some _ => .error (.wrongType name)
  | none => .error (.missingField name)

/-- Optional `String` field (serde: absent `Option` field is `None`). -/
def fieldOptStr (doc : YamlDoc) (name : String) : Except YamlError (Option String) :=
  match yamlGet doc name with
  | some (.str s) => .ok (some s)
  | some _ => .error (.wrongType name)
  | none => .ok none

/-- Required numeric field. -/
def fieldNat (doc : YamlDoc) (name : String) : Except YamlError Nat :=
  match yamlGet doc name with
  | some (.nat n) => .ok n
  | some _ => .error (.wrongType name)
  | none => .error (.missingField name)

/-- Required path field. -/
def fieldPath (doc : YamlDoc) (name : String) : Except YamlError FsPath :=
  match yamlGet doc name with
  | some (.path p) => .ok p
  | some _ => .error (.wrongType name)
  | none => .error (.missingField name)

/-- Required path-list field. -/
def fieldPaths (doc : YamlDoc) (name : String) : Except YamlError (List FsPath) :=
  match yamlGet doc name with
  | some (.paths ps) => .ok ps
  | some _ => .error (.wrongType name)
  | none => .error (.missingField name)

/-- Required string-list field. -/
def fieldStrs (doc : YamlDoc) (name : String) : Except YamlError (List String) :=
  match yamlGet doc name with
  | some (.strs ss) => .ok ss
  | some _ => .error (.wrongType name)
  | none => .error (.missingField name)

/-- Required build-options field. -/
def fieldOpts (doc : YamlDoc) (name : String) : Except YamlError CacheBuildOptions :=
  match yamlGet doc name with
  | some (.opts o) => .ok o
  | some _ => .error (.wrongType name)
  | none => .error (.missingField name)

/-- `CacheMetadata::read_from_yaml`: serde-derived deserialization of the
metadata document.  Unknown fields are ignored (no `deny_unknown_fields`);
a missing required field is an error; the missing `Option` field
`llvm_version` deserializes to `None`. -/
def CacheMetadata.read_from_yaml (doc : YamlDoc) : Except YamlError CacheMetadata := do
  let key ← fieldStr doc "key"
  let created_at ← fieldStr doc "created_at"
  let compiler_version ← fieldStr doc "compiler_version"
  let llvm_version ← fieldOptStr doc "llvm_version"
  let source ← fieldPath doc "source"
  let imports ← fieldPaths doc "imports"
  let binary_path ← fieldPath doc "binary_path"
  let binary_size ← fieldNat doc "binary_size"
  let build_time_ms ← fieldNat doc "build_time_ms"
  let options ← fieldOpts doc "options"
  let linked_crates ← fieldStrs doc "linked_crates"
  return ⟨key, created_at, compiler_version, llvm_version, source, imports,
    binary_path, binary_size, build_time_ms, options, linked_crates⟩

/-- Field names of `CacheMetadata` that serde requires to be present. -/
def requiredFieldNames : List String :=
  ["key", "created_at", "compiler_version", "source", "imports",
   "binary_path", "binary_size", "build_time_ms", "options", "linked_crates"]

/-- All field names of `CacheMetadata` (required plus optional). -/
def knownFieldNames : List String := requiredFieldNames ++ ["llvm_version"]

/-- Filesystem state seen by `CacheManager::lookup`: the metadata document
stored under `metadata/<key>.yaml` (if any), and which paths exist on
disk. -/
structure CacheFs where
  metaDoc : String → Option YamlDoc
  pathExists : FsPath → Bool

/-- A cache hit (`CacheEntry` in src/cache/manager.rs). -/
structure CacheEntry where
  key : String
  metadata : CacheMetadata
  binary_path : FsPath
deriving DecidableEq

/-- `CacheManager::lookup`: miss when the metadata file is absent; parse
errors propagate via `?`; miss when the recorded artifact path does not
exist; otherwise a hit carrying the parsed metadata and the artifact
path. -/
def CacheManager.lookup (fs : CacheFs) (key : String) :
    Except YamlError (Option CacheEntry) :=
  match fs.metaDoc key with
  | none => .ok none
  | some doc =>
    match CacheMetadata.read_from_yaml doc with
    | .error e => .error e
    | .ok metadata =>
      if fs.pathExists metadata.binary_path then
        .ok (some ⟨key, metadata, metadata.binary_path⟩)
      else
        .ok none

/-! ## Lexer model (src/lexer/token.rs, src/lexer/tokenizer.rs)

The lexer works on the raw bytes of the source (`as_bytes` indexing in the
Rust code); a source text is modelled as its byte list.  `str::trim` and
`char::is_whitespace` are modelled on the ASCII whitespace bytes. -/

/-- Half-open byte interval of a token (`Span` in token.rs; `end` is a Lean
keyword, so that field is named `stop`). -/
structure Span where
  start : Nat
  stop : Nat
deriving DecidableEq, Repr

/-- Token kinds.  The first group is the token set of the minimal lexer in
src/lexer/token.rs.  The second group is Modelled from the spec: the
canonical fuller lexer and its token set are absent from src/ (the parser
in src/parser/grammar.rs references variants such as `Let`, `FString` and
`PlusEq` that the minimal `TokenKind` lacks), so those variants are added
here following the spec (§4.1–§4.2) and the parser's usage. -/
inductive TokenKind where
  | Fn
  | Print
  | Return
  | Identifier (s : String)
  | Number (s : String)
  | StringLiteral (s : String)
  | Colon
  | Newline
  | Indent
  | Dedent
  | LParen
  | RParen
  | Comma
  | Equals
  | Plus
  | Minus
  | Star
  | Slash
  | Eof
  | Let
  | If
  | Else
  | Elif
  | For
  | While
  | Break
  | Continue
  | In
  | Use
  | From
  | As
  | Async
  | Await
  | Spawn
  | Match
  | Case
  | True
  | False
  | FString (s : String)
  | Dot
  | Arrow
  | DoubleDot
  | Percent
  | Bang
  | Amp
  | Pipe
  | Lt
  | Gt
  | LtEq
  | GtEq
  | EqEq
  | Neq
  | PlusEq
  | MinusEq
  | StarEq
  | SlashEq

/-- Constructor index and string payload of a token kind: an injective
encoding used to decide equality with a shallow proof term. -/
def TokenKind.enc : TokenKind → Nat × String
  | .Fn => (0, "")
  | .Print => (1, "")
  | .Return => (2, "")
  | .Identifier s => (3, s)
  | .Number s => (4, s)
  | .StringLiteral s => (5, s)
  | .Colon => (6, "")
  | .Newline => (7, "")
  | .Indent => (8, "")
  | .Dedent => (9, "")
  | .LParen => (10, "")
  | .RParen => (11, "")
  | .Comma => (12, "")
  | .Equals => (13, "")
  | .Plus => (14, "")
  | .Minus => (15, "")
  | .Star => (16, "")
  | .Slash => (17, "")
  | .Eof => (18, "")
  | .Let => (19, "")
  | .If => (20, "")
  | .Else => (21, "")
  | .Elif => (22, "")
  | .For => (23, "")
  | .While => (24, "")
  | .Break => (25, "")
  | .Continue => (26, "")
  | .In => (27, "")
  | .Use => (28, "")
  | .From => (29, "")
  | .As => (30, "")
  | .Async => (31, "")
  | .Await => (32, "")
  | .Spawn => (33, "")
  | .Match => (34, "")
  | .Case => (35, "")
  | .True => (36, "")
  | .False => (37, "")
  | .FString s => (38, s)
  | .Dot => (39, "")
  | .Arrow => (40, "")
  | .DoubleDot => (41, "")
  | .Percent => (42, "")
  | .Bang => (43, "")
  | .Amp => (44, "")
  | .Pipe => (45, "")
  | .Lt => (46, "")
  | .Gt => (47, "")
  | .LtEq => (48, "")
  | .GtEq => (49, "")
  | .EqEq => (50, "")
  | .Neq => (51, "")
  | .PlusEq => (52, "")
  | .MinusEq => (53, "")
  | .StarEq => (54, "")
  | .SlashEq => (55, "")

/-- Left inverse of the token-kind encoding. -/
def TokenKind.dec (p : Nat × String) : TokenKind :=
  if p.1 = 0 then .Fn
  else if p.1 = 1 then .Print
  else if p.1 = 2 then .Return
  else if p.1 = 3 then .Identifier p.2
  else if p.1 = 4 then .Number p.2
  else if p.1 = 5 then .StringLiteral p.2
  else if p.1 = 6 then .Colon
  else if p.1 = 7 then .Newline
  else if p.1 = 8 then .Indent
  else if p.1 = 9 then .Dedent
  else if p.1 = 10 then .LParen
  else if p.1 = 11 then .RParen
  else if p.1 = 12 then .Comma
  else if p.1 = 13 then .Equals
  else if p.1 = 14 then .Plus
  else if p.1 = 15 then .Minus
  else if p.1 = 16 then .Star
  else if p.1 = 17 then .Slash
  else if p.1 = 18 then .Eof
  else if p.1 = 19 then .Let
  else if p.1 = 20 then .If
  else if p.1 = 21 then .Else
  else if p.1 = 22 then .Elif
  else if p.1 = 23 then .For
  else if p.1 = 24 then .While
  else if p.1 = 25 then .Break
  else if p.1 = 26 then .Continue
  else if p.1 = 27 then .In
  else if p.1 = 28 then .Use
  else if p.1 = 29 then .From
  else if p.1 = 30 then .As
  else if p.1 = 31 then .Async
  else if p.1 = 32 then .Await
  else if p.1 = 33 then .Spawn
  else if p.1 = 34 then .Match
  else if p.1 = 35 then .Case
  else if p.1 = 36 then .True
  else if p.1 = 37 then .False
  else if p.1 = 38 then .FString p.2
  else if p.1 = 39 then .Dot
  else if p.1 = 40 then .Arrow
  else if p.1 = 41 then .DoubleDot
  else if p.1 = 42 then .Percent
  else if p.1 = 43 then .Bang
  else if p.1 = 44 then .Amp
  else if p.1 = 45 then .Pipe
  else if p.1 = 46 then .Lt
  else if p.1 = 47 then .Gt
  else if p.1 = 48 then .LtEq
  else if p.1 = 49 then .GtEq
  else if p.1 = 50 then .EqEq
  else if p.1 = 51 then .Neq
  else if p.1 = 52 then .PlusEq
  else if p.1 = 53 then .MinusEq
  else if p.1 = 54 then .StarEq
  else .SlashEq

instance : DecidableEq TokenKind := fun a b =>
  decidable_of_iff (TokenKind.enc a = TokenKind.enc b)
    (by
      constructor
      · intro h
        have ha : TokenKind.dec (TokenKind.enc a) = a := by cases a <;> rfl
        have hb : TokenKind.dec (TokenKind.enc b) = b := by cases b <;> rfl
        rw [← ha, h, hb]
      · intro h
        rw [h])

deriving instance Repr for TokenKind

/-- A token: kind plus span. -/
structure Token where
  kind : TokenKind
  span : Span
deriving DecidableEq, Repr

/-- Lexer diagnostics (`LexerError` in tokenizer.rs). -/
inductive LexerError where
  | TabsNotAllowed (line column : Nat) (span : Span)
  | IndentationMismatch (line expected found : Nat) (span : Span)
  | UnterminatedString (line column : Nat) (span : Span)
  | UnexpectedCharacter (ch line column : Nat) (span : Span)
deriving DecidableEq, Repr

/-- ASCII decimal digit test (`u8::is_ascii_digit`). -/
def isDigitB (b : Nat) : Bool := decide (48 ≤ b ∧ b ≤ 57)

/-- ASCII letter test (`u8::is_ascii_alphabetic`). -/
def isAlphaB (b : Nat) : Bool := decide ((65 ≤ b ∧ b ≤ 90) ∨ (97 ≤ b ∧ b ≤ 122))

/-- ASCII alphanumeric test (`u8::is_ascii_alphanumeric`). -/
def isAlnumB (b : Nat) : Bool := isDigitB b || isAlphaB b

/-- ASCII whitespace bytes (the ASCII part of `char::is_whitespace`, which
`str::trim` uses). -/
def isWsB (b : Nat) : Bool := decide (b = 9 ∨ b = 10 ∨ b = 11 ∨ b = 12 ∨ b = 13 ∨ b = 32)

/-- Indentation bytes consumed by the leading-whitespace scan (space or
tab). -/
def isIndentB (b : Nat) : Bool := b = 32 || b = 9

/-- String built from a byte list (ASCII; used for token lexeme
payloads). -/
def bytesToStr (bs : List Nat) : String := ⟨bs.map Char.ofNat⟩

/-- Accumulator form of `str::split_inclusive('\n')`: chunks keep their
terminating newline byte; an empty source yields no chunks. -/
def splitInclusiveNlAux (acc : List Nat) : List Nat → List (List Nat)
  | [] => if acc = [] then [] else [acc.reverse]
  | b :: rest =>
    if b = 10 then (acc.reverse ++ [10]) :: splitInclusiveNlAux [] rest
    else splitInclusiveNlAux (b :: acc) rest

/-- Source split into lines, each retaining its `\n`
(`source.split_inclusive('\n')`). -/
def splitInclusiveNl (l : List Nat) : List (List Nat) := splitInclusiveNlAux [] l

/-- Line content without its terminating newline (the
`line_without_newline` slice). -/
def chunkLine (chunk : List Nat) : List Nat :=
  if chunk.getLast? = some 10 then chunk.dropLast else chunk

/-- Leading-indentation scan of one line (first `while` loop of
`tokenize`): spaces advance the width; tabs are a diagnostic and advance
the position but not the width; anything else stops the scan.  Returns
`(idx, indent_width, errors)`. -/
def scanIndent (line_offset line_number : Nat) :
    List Nat → Nat → Nat → Nat → Nat × Nat × List LexerError
  | [], idx, width, _column => (idx, width, [])
  | b :: rest, idx, width, column =>
    if b = 32 then scanIndent line_offset line_number rest (idx + 1) (width + 1) (column + 1)
    else if b = 9 then
      let r := scanIndent line_offset line_number rest (idx + 1) width (column + 1)
      (r.1, r.2.1,
        LexerError.TabsNotAllowed line_number column
          ⟨line_offset + idx, line_offset + idx + 1⟩ :: r.2.2)
    else (idx, width, [])

/-- Dedent-popping loop (`while current_indent < *indent_stack.last()`).
The stack is kept top-first.  Returns the emitted DEDENT tokens in pop
order and the remaining stack. -/
def popDedents (line_offset current_indent : Nat) : List Nat → List Token × List Nat
  | [] => ([], [])
  | top :: rest =>
    if current_indent < top then
      let r := popDedents line_offset current_indent rest
      (Token.mk .Dedent ⟨line_offset + current_indent, line_offset + top⟩ :: r.1, r.2)
    else ([], top :: rest)

/-- Indentation comparison of a processed line against the indent stack:
strictly greater pushes and emits one INDENT; strictly less pops with one
DEDENT per pop and diagnoses a mismatch when the remaining top differs;
equal emits nothing. -/
def emitIndentation (line_offset line_number current_indent : Nat) (stack : List Nat) :
    List Token × List LexerError × List Nat :=
  let last_indent := stack.headD 0
  if current_indent > last_indent then
    ([Token.mk .Indent ⟨line_offset + last_indent, line_offset + current_indent⟩], [],
      current_indent :: stack)
  else if current_indent < last_indent then
    let r := popDedents line_offset current_indent stack
    let errs :=
      if current_indent ≠ r.2.headD 0 then
        [LexerError.IndentationMismatch line_number (r.2.headD 0) current_indent
          ⟨line_offset + current_indent, line_offset + current_indent + 1⟩]
      else []
    (r.1, errs, r.2)
  else ([], [], stack)

/-- Within-line token production (the `while i < line.len()` loop of
`tokenize`): `i` is the current index into the line and `bytes` the line
suffix starting there; `line_len` is the full line length (needed for
unterminated-string spans). -/
def lexRest (line_offset line_number line_len : Nat) :
    Nat → List Nat → List Token × List LexerError
  | _, [] => ([], [])
  | i, b :: rest =>
    if b = 32 ∨ b = 9 then lexRest line_offset line_number line_len (i + 1) rest
    else if b = 35 then ([], [])
    else if b = 40 then
      let r := lexRest line_offset line_number line_len (i + 1) rest
      (Token.mk .LParen ⟨line_offset + i, line_offset + i + 1⟩ :: r.1, r.2)
    else if b = 41 then
      let r := lexRest line_offset line_number line_len (i + 1) rest
      (Token.mk .RParen ⟨line_offset + i, line_offset + i + 1⟩ :: r.1, r.2)
    else if b = 44 then
      let r := lexRest line_offset line_number line_len (i + 1) rest
      (Token.mk .Comma ⟨line_offset + i, line_offset + i + 1⟩ :: r.1, r.2)
    else if b = 43 then
      let r := lexRest line_offset line_number line_len (i + 1) rest
      (Token.mk .Plus ⟨line_offset + i, line_offset + i + 1⟩ :: r.1, r.2)
    else if b = 45 then
      let r := lexRest line_offset line_number line_len (i + 1) rest
      (Token.mk .Minus ⟨line_offset + i, line_offset + i + 1⟩ :: r.1, r.2)
    else if b = 42 then
      let r := lexRest line_offset line_number line_len (i + 1) rest
      (Token.mk .Star ⟨line_offset + i, line_offset + i + 1⟩ :: r.1, r.2)
    else if b = 47 then
      let r := lexRest line_offset line_number line_len (i + 1) rest
      (Token.mk .Slash ⟨line_offset + i, line_offset + i + 1⟩ :: r.1, r.2)
    else if b = 58 then
      let r := lexRest line_offset line_number line_len (i + 1) rest
      (Token.mk .Colon ⟨line_offset + i, line_offset + i + 1⟩ :: r.1, r.2)
    else if b = 61 then
      let r := lexRest line_offset line_number line_len (i + 1) rest
      (Token.mk .Equals ⟨line_offset + i, line_offset + i + 1⟩ :: r.1, r.2)
    else if b = 34 then
      let content := rest.takeWhile (fun c => c ≠ 34)
      if content.length = rest.length then
        ([], [LexerError.UnterminatedString line_number (i + 1)
          ⟨line_offset + i, line_offset + line_len⟩])
      else
        let r := lexRest line_offset line_number line_len
          (i + content.length + 2) (rest.drop (content.length + 1))
        (Token.mk (.StringLiteral (bytesToStr content))
          ⟨line_offset + i, line_offset + i + content.length + 2⟩ :: r.1, r.2)
    else if isDigitB b then
      let ds1 := rest.takeWhile isDigitB
      let after := rest.drop ds1.length
      match after with
      | 46 :: _ =>
        let rest2 := rest.drop (ds1.length + 1)
        let ds2 := rest2.takeWhile isDigitB
        let lexeme := b :: ds1 ++ [46] ++ ds2
        let r := lexRest line_offset line_number line_len
          (i + lexeme.length) (rest2.drop ds2.length)
        (Token.mk (.Number (bytesToStr lexeme))
          ⟨line_offset + i, line_offset + i + lexeme.length⟩ :: r.1, r.2)
      | _ =>
        let lexeme := b :: ds1
        let r := lexRest line_offset line_number line_len (i + lexeme.length) after
        (Token.mk (.Number (bytesToStr lexeme))
          ⟨line_offset + i, line_offset + i + lexeme.length⟩ :: r.1, r.2)
    else if isAlphaB b ∨ b = 95 then
      let ident := rest.takeWhile (fun c => isAlnumB c || c = 95)
      let lexeme := b :: ident
      let value := bytesToStr lexeme
      let kind := if value = "fn" then TokenKind.Fn
        else if value = "print" then TokenKind.Print
        else if value = "return" then TokenKind.Return
        else TokenKind.Identifier value
      let r := lexRest line_offset line_number line_len
        (i + lexeme.length) (rest.drop ident.length)
      (Token.mk kind ⟨line_offset + i, line_offset + i + lexeme.length⟩ :: r.1, r.2)
    else
      let r := lexRest line_offset line_number line_len (i + 1) rest
      (r.1, LexerError.UnexpectedCharacter b line_number (i + 1)
        ⟨line_offset + i, line_offset + i + 1⟩ :: r.2)
termination_by _ bytes => bytes.length
decreasing_by
  all_goals first
    | omega
    | (simp only [List.length_drop, List.length_cons]; omega)

/-- Processing of a single source line (one iteration of the outer `for`
loop of `tokenize`): indentation scan, blank/comment skip, indentation
tokens, within-line tokens, terminating NEWLINE. -/
def lexLine (line_offset line_number : Nat) (stack : List Nat) (chunk : List Nat) :
    List Token × List LexerError × List Nat :=
  let line := chunkLine chunk
  let s := scanIndent line_offset line_number line 0 0 1
  let idx := s.1
  let indent_width := s.2.1
  let indent_errs := s.2.2
  let rest := line.drop idx
  let is_blank := (rest.filter (fun b => !isWsB b)).isEmpty
  let is_comment := rest.headD 0 = 35
  if is_blank || is_comment then ([], indent_errs, stack)
  else
    let e := emitIndentation line_offset line_number indent_width stack
    let body := lexRest line_offset line_number line.length idx rest
    (e.1 ++ body.1 ++
      [Token.mk .Newline ⟨line_offset + line.length, line_offset + line.length + 1⟩],
     indent_errs ++ e.2.1 ++ body.2, e.2.2)

/-- Fold of `lexLine` over all lines, threading the byte offset, the line
index and the indent stack.  Returns the tokens, the diagnostics, the
final stack and the final offset. -/
def tokenizeLines (stack : List Nat) (line_idx offset : Nat) :
    List (List Nat) → List Token × List LexerError × List Nat × Nat
  | [] => ([], [], stack, offset)
  | chunk :: chunks =>
    let r := lexLine offset (line_idx + 1) stack chunk
    let r' := tokenizeLines r.2.2 (line_idx + 1) (offset + chunk.length) chunks
    (r.1 ++ r'.1, r.2.1 ++ r'.2.1, r'.2.2)

/-- End-of-source dedent flush (`while indent_stack.len() > 1`): one DEDENT
per remaining stack entry above the sentinel. -/
def finalDedents (offset : Nat) : List Nat → List Token
  | [] => []
  | [_] => []
  | _ :: rest => Token.mk .Dedent ⟨offset, offset⟩ :: finalDedents offset rest

/-- `tokenize` (src/lexer/tokenizer.rs): line-by-line lexing with the
indent stack initialized to `[0]`, final dedents, an EOF token whose span
copies the last token's span (or `(offset, offset)`), and the error policy
that a non-empty diagnostic list discards the tokens. -/
def Lexer.tokenize (source : List Nat) : Except (List LexerError) (List Token) :=
  let chunks := splitInclusiveNl source
  let r := tokenizeLines [0] 0 0 chunks
  let toks := r.1 ++ finalDedents r.2.2.2 r.2.2.1
  let eof_span := ((toks.getLast?).map Token.span).getD ⟨r.2.2.2, r.2.2.2⟩
  let toks := toks ++ [Token.mk .Eof eof_span]
  if r.2.1.isEmpty then .ok toks else .error r.2.1

/-- Number of tokens of a given kind in a stream. -/
def countKind (k : TokenKind) (ts : List Token) : Nat :=
  ts.countP (fun t => decide (t.kind = k))

/-- Body of a line after the leading space/tab run (what the blank/comment
test of `tokenize` inspects). -/
def lineBody (chunk : List Nat) : List Nat :=
  (chunkLine chunk).dropWhile isIndentB

/-- Blank test of a line exactly as `tokenize` computes it
(`rest.trim().is_empty()`). -/
def lineIsBlank (chunk : List Nat) : Bool :=
  ((lineBody chunk).filter (fun b => !isWsB b)).isEmpty

/-- Skip test of a line exactly as `tokenize` computes it (blank or
comment-only lines produce no tokens). -/
def lineSkipped (chunk : List Nat) : Bool :=
  lineIsBlank chunk || (lineBody chunk).headD 0 = 35

/-! ## AST model (src/ast/nodes.rs) -/

/-- Surface types (`Type` in nodes.rs; `Type` is reserved in Lean). -/
inductive Ty where
  | Simple (name : String)
  | Generic (base : String) (args : List Ty)

/-- Function/lambda parameter (`Param` in nodes.rs). -/
structure Param where
  name : String
  ty : Option Ty

/-- Value of a `f64` numeric literal.  The integer branch models
`parse::<i64>` followed by the `as f64` cast (exact for every value used
in this development); the float branch keeps the parsed decimal text
symbolic, since `f64` rounding is not modelled. -/
inductive NumberValue where
  | int (n : Int)
  | float (digits : String)
deriving DecidableEq, Repr

/-- Literal values (`Literal` in nodes.rs; the constructor for string
literals is named `Str` because `String` would shadow the payload
type). -/
inductive Literal where
  | Str (s : String)
  | Number (v : NumberValue)
  | Bool (b : Bool)
deriving DecidableEq, Repr

/-- Binary operators (`BinaryOp` in nodes.rs). -/
inductive BinaryOp where
  | Add | Sub | Mul | Div | Mod
  | Eq | Ne | Lt | Gt | LtEq | GtEq
  | And | Or
deriving DecidableEq, Repr

/-- Unary operators (`UnaryOp` in nodes.rs). -/
inductive UnaryOp where
  | Neg
  | Not
deriving DecidableEq, Repr

mutual

/-- Expressions (`Expr` in nodes.rs); `Block` bodies are their statement
lists. -/
inductive Expr where
  | Literal (lit : Literal)
  | Identifier (name : String)
  | Member (object : Expr) (field : String)
  | Call (func : Expr) (args : List Expr)
  | Binary (op : BinaryOp) (left : Expr) (right : Expr)
  | Unary (op : UnaryOp) (expr : Expr)
  | IfExpr (cond : Expr) (then_branch : Expr) (else_branch : Option Expr)
  | Range (start : Expr) (stop : Expr)
  | FString (parts : List FStringPart)
  | Lambda (params : List Param) (ret_ty : Option Ty) (body : List Statement)
  | Await (e : Expr)
  | Spawn (e : Expr)

/-- Parts of an f-string (`FStringPart` in nodes.rs). -/
inductive FStringPart where
  | Text (s : String)
  | Expr (e : Expr)

/-- Statements (`Statement` in nodes.rs); the expression-statement
constructor is `ExprStmt` to avoid clashing with the `Expr` type. -/
inductive Statement where
  | Let (name : String) (expr : Expr)
  | Assignment (name : String) (expr : Expr)
  | If (cond : Expr) (then_block : List Statement)
      (elif_blocks : List (Expr × List Statement)) (else_block : Option (List Statement))
  | For (var : String) (iterable : Expr) (body : List Statement)
  | While (cond : Expr) (body : List Statement)
  | Break
  | Continue
  | Return (e : Option Expr)
  | Function (name : String) (params : List Param) (ret_ty : Option Ty)
      (body : List Statement)
  | ExprStmt (e : Expr)
  | Use (module : String) (aliasName : Option String)
  | Block (b : List Statement)

end

/-! ## Parser model (src/parser/grammar.rs) -/

/-- Base-10 value of a digit string. -/
def digitsVal (l : List Nat) : Nat :=
  l.foldl (fun acc d => acc * 10 + (d - 48)) 0

/-- Modelled from the spec: the fuller lexer's number rule (the canonical
fuller lexer is absent from src/; grammar.rs is its caller).  Spec §4.1:
"Numbers: one or more digits, optionally followed by `.` and more digits;
embedded underscores are permitted and stripped at literal-construction
time."  The lexeme is returned verbatim (underscores included) together
with the unconsumed input. -/
def lexNumberFull (bytes : List Nat) : Option (List Nat × List Nat) :=
  match bytes with
  | [] => none
  | b :: rest =>
    if isDigitB b then
      let ds1 := rest.takeWhile (fun c => isDigitB c || c = 95)
      let after := rest.drop ds1.length
      match after with
      | 46 :: rest2 =>
        let ds2 := rest2.takeWhile (fun c => isDigitB c || c = 95)
        some (b :: ds1 ++ [46] ++ ds2, rest2.drop ds2.length)
      | _ => some (b :: ds1, after)
    else none

/-- `str::parse::<i64>` on the cleaned number text: succeeds on a
non-empty all-digit string whose value fits in `i64` (lexer-produced
lexemes carry no sign). -/
def parseI64 (s : List Nat) : Option Int :=
  if s ≠ [] ∧ s.all isDigitB then
    if digitsVal s ≤ 2 ^ 63 - 1 then some (Int.ofNat (digitsVal s)) else none
  else none

/-- Numeric-literal construction from a `Number` token's lexeme
(grammar.rs, `literal_expr_parser`): remove underscores
(`value.replace('_', "")`); a lexeme containing `.` parses as `f64`;
otherwise parse as `i64` (stored as `f64`), with fallback `0.0` on
failure. -/
def numberLiteralValue (value : List Nat) : NumberValue :=
  let clean := value.filter (fun c => c ≠ 95)
  if 46 ∈ clean then NumberValue.float (bytesToStr clean)
  else
    match parseI64 clean with
    | some n => NumberValue.int n
    | none => NumberValue.int 0

/-- `literal_expr_parser` (grammar.rs): the single-token select mapping
literal tokens to expressions.  The f-string case delegates to
`parse_fstring`; it is a parameter here exactly as the recursive
structure of the source ties the two together. -/
def literal_expr (fstringF : String → Expr) (t : TokenKind) : Option Expr :=
  match t with
  | .FString content => some (fstringF content)
  | .StringLiteral value => some (.Literal (.Str value))
  | .Number value => some (.Literal (.Number (numberLiteralValue (strBytes value))))
  | .True => some (.Literal (.Bool true))
  | .False => some (.Literal (.Bool false))
  | _ => none

/-- String from a character list. -/
def charsToStr (l : List Char) : String := ⟨l⟩

/-- `str::trim` on a character list (Unicode whitespace trimmed from both
ends, via `Char.isWhitespace`). -/
def trimChars (l : List Char) : List Char :=
  ((l.dropWhile Char.isWhitespace).reverse.dropWhile Char.isWhitespace).reverse

/-- Scanning loop of `parse_fstring` (grammar.rs): walks the raw body,
`{{`/`}}` escape to literal braces, a `{` opens a brace group read up to
the next `}`; the group's trimmed inner text is re-tokenized (`tk`, the
lexer with its error case as `none`) and re-parsed (`ep`, the expression
grammar); a failing group is retained as a bare identifier holding the
trimmed text.  `current_text` accumulates pending literal text. -/
def fstringLoop (tk : List Char → Option (List Token)) (ep : List Token → Option Expr) :
    List Char → List Char → List FStringPart
  | [], current_text =>
    if current_text = [] then [] else [FStringPart.Text (charsToStr current_text)]
  | '{' :: rest, current_text =>
    if rest.head? = some '{' then fstringLoop tk ep (rest.drop 1) (current_text ++ ['{'])
    else
      let pre := if current_text = [] then []
        else [FStringPart.Text (charsToStr current_text)]
      let expr_content := rest.takeWhile (fun c => c ≠ '}')
      let group :=
        if expr_content = [] then []
        else
          let trimmed := trimChars expr_content
          if trimmed = [] then []
          else
            match tk trimmed with
            | some toks =>
              match ep toks with
              | some e => [FStringPart.Expr e]
              | none => [FStringPart.Expr (Expr.Identifier (charsToStr trimmed))]
            | none => [FStringPart.Expr (Expr.Identifier (charsToStr trimmed))]
      pre ++ group ++ fstringLoop tk ep ((rest.drop expr_content.length).drop 1) []
  | '}' :: rest, current_text =>
    if rest.head? = some '}' then fstringLoop tk ep (rest.drop 1) (current_text ++ ['}'])
    else fstringLoop tk ep rest (current_text ++ ['}'])
  | c :: rest, current_text => fstringLoop tk ep rest (current_text ++ [c])
termination_by content _ => content.length
decreasing_by
  all_goals first
    | omega
    | (simp only [List.length_drop, List.length_cons]; omega)

/-- `parse_fstring` (grammar.rs): scan the body into parts; when every
part is literal text, collapse a single leading text part to a plain
string literal; otherwise build the f-string expression. -/
def parse_fstring (tk : List Char → Option (List Token)) (ep : List Token → Option Expr)
    (content : List Char) : Expr :=
  let parts := fstringLoop tk ep content []
  if parts.all (fun p => match p with | .Text _ => true | _ => false) then
    match parts.head? with
    | some (.Text text) => Expr.Literal (.Str text)
    | _ => Expr.FString parts
  else Expr.FString parts

/-- Brace groups of an f-string body as the spec describes the scan
("the parser scans that body for `{…}` brace pairs (doubled `{{` / `}}`
escape to literals)", §4.2).  Refinement-side definition, compared with
`fstringLoop` in the C9 theorem. -/
def fstringGroups : List Char → List (List Char)
  | [] => []
  | '{' :: rest =>
    if rest.head? = some '{' then fstringGroups (rest.drop 1)
    else
      let g := rest.takeWhile (fun c => c ≠ '}')
      g :: fstringGroups ((rest.drop g.length).drop 1)
  | '}' :: rest =>
    if rest.head? = some '}' then fstringGroups (rest.drop 1)
    else fstringGroups rest
  | _ :: rest => fstringGroups rest
termination_by content => content.length
decreasing_by
  all_goals first
    | omega
    | (simp only [List.length_drop, List.length_cons]; omega)

/-- `assignment_stmt` (grammar.rs): `identifier_parser() .then(choice((=
to None, += to Some Add, -= to Some Sub, *= to Some Mul, /= to Some
Div))) .then(expr) .map(desugar)`, where a compound operator desugars
`x op= rhs` to `x = x op rhs`.  The expression parser is a parameter,
exactly as the source builds this parser from `expr.clone()`. -/
def assignment_stmt (expr : List TokenKind → Option (Expr × List TokenKind))
    (toks : List TokenKind) : Option (Statement × List TokenKind) :=
  match toks with
  | .Identifier name :: rest =>
    let opTok : Option (Option BinaryOp × List TokenKind) :=
      match rest with
      | .Equals :: r => some (none, r)
      | .PlusEq :: r => some (some .Add, r)
      | .MinusEq :: r => some (some .Sub, r)
      | .StarEq :: r => some (some .Mul, r)
      | .SlashEq :: r => some (some .Div, r)
      | _ => none
    match opTok with
    | none => none
    | some (op, r) =>
      match expr r with
      | none => none
      | some (rhs, r2) =>
        let e := match op with
          | some op => Expr.Binary op (Expr.Identifier name) rhs
          | none => rhs
        some (Statement.Assignment name e, r2)
  | _ => none

-- ===== Task runtime model: metrics (src/src/runtime/task/metrics.rs) =====

/-- Wrap a counter into the u64 range, modelling AtomicU64 fetch_add overflow
(18446744073709551616 = 2 to the 64). -/
def u64wrap (n : Nat) : Nat := n % 18446744073709551616

/-- Wrap an integer into the i64 range, modelling AtomicI64 fetch_add and
fetch_sub overflow (9223372036854775808 = 2 to the 63). -/
def i64wrap (z : Int) : Int :=
  (z + 9223372036854775808) % 18446744073709551616 - 9223372036854775808

/-- Counter state of TaskRuntimeMetrics: spawned, completed, channels are
AtomicU64; waiting, channel_waiters, channel_backlog are AtomicI64. -/
structure TaskRuntimeMetrics where
  spawned : Nat
  completed : Nat
  waiting : Int
  channels : Nat
  channel_waiters : Int
  channel_backlog : Int
deriving DecidableEq

/-- Default-initialised metrics, as produced by TaskRuntimeMetrics::new. -/
def TaskRuntimeMetrics.new : TaskRuntimeMetrics :=
  { spawned := 0, completed := 0, waiting := 0, channels := 0,
    channel_waiters := 0, channel_backlog := 0 }

/-- record_spawn: spawned += 1 and waiting += 1. -/
def TaskRuntimeMetrics.record_spawn (m : TaskRuntimeMetrics) : TaskRuntimeMetrics :=
  { m with spawned := u64wrap (m.spawned + 1), waiting := i64wrap (m.waiting + 1) }

/-- record_completion: completed += 1 and waiting -= 1. -/
def TaskRuntimeMetrics.record_completion (m : TaskRuntimeMetrics) : TaskRuntimeMetrics :=
  { m with completed := u64wrap (m.completed + 1), waiting := i64wrap (m.waiting - 1) }

/-- record_waiting_delta: waiting += delta when delta is nonzero. -/
def TaskRuntimeMetrics.record_waiting_delta (m : TaskRuntimeMetrics) (delta : Int) :
    TaskRuntimeMetrics :=
  if delta ≠ 0 then { m with waiting := i64wrap (m.waiting + delta) } else m

/-- register_channel: channels += 1. -/
def TaskRuntimeMetrics.register_channel (m : TaskRuntimeMetrics) : TaskRuntimeMetrics :=
  { m with channels := u64wrap (m.channels + 1) }

/-- record_channel_waiters: channel_waiters += delta when delta is nonzero. -/
def TaskRuntimeMetrics.record_channel_waiters (m : TaskRuntimeMetrics) (delta : Int) :
    TaskRuntimeMetrics :=
  if delta ≠ 0 then { m with channel_waiters := i64wrap (m.channel_waiters + delta) } else m

/-- record_channel_backlog: channel_backlog += delta when delta is nonzero. -/
def TaskRuntimeMetrics.record_channel_backlog (m : TaskRuntimeMetrics) (delta : Int) :
    TaskRuntimeMetrics :=
  if delta ≠ 0 then { m with channel_backlog := i64wrap (m.channel_backlog + delta) } else m

/-- Mirror of TaskMetricsSnapshot (all u64 fields). -/
structure TaskMetricsSnapshot where
  tasks_spawned : Nat
  tasks_completed : Nat
  tasks_waiting : Nat
  channels_registered : Nat
  channel_waiters : Nat
  channel_backlog : Nat
deriving DecidableEq

/-- snapshot loads every counter, clamping the i64 counters at zero before the
cast to u64 (max(load, 0) as u64). -/
def TaskRuntimeMetrics.snapshot (m : TaskRuntimeMetrics) : TaskMetricsSnapshot :=
  { tasks_spawned := m.spawned
    tasks_completed := m.completed
    tasks_waiting := (max m.waiting 0).toNat
    channels_registered := m.channels
    channel_waiters := (max m.channel_waiters 0).toNat
    channel_backlog := (max m.channel_backlog 0).toNat }

/-- Metric events of a scheduler run: spawn_fn calls record_spawn, each task
run by a worker calls record_completion. -/
inductive MetricEvent
  | spawn
  | completion
deriving DecidableEq

/-- Apply one metric event to the counters. -/
def applyEvent (m : TaskRuntimeMetrics) : MetricEvent → TaskRuntimeMetrics
  | MetricEvent.spawn => m.record_spawn
  | MetricEvent.completion => m.record_completion

/-- Fold an event trace over freshly initialised metrics. -/
def runEvents (evs : List MetricEvent) : TaskRuntimeMetrics :=
  evs.foldl applyEvent TaskRuntimeMetrics.new

/-- Number of spawn events in a trace. -/
def countSpawn : List MetricEvent → Nat
  | [] => 0
  | MetricEvent.spawn :: rest => countSpawn rest + 1
  | MetricEvent.completion :: rest => countSpawn rest

/-- Number of completion events in a trace. -/
def countCompletion : List MetricEvent → Nat
  | [] => 0
  | MetricEvent.spawn :: rest => countCompletion rest
  | MetricEvent.completion :: rest => countCompletion rest + 1

-- ===== Task runtime model: channels (src/src/runtime/task/channel.rs) =====

/-- State of a crossbeam unbounded channel: the queued messages and the number
of live Sender handles. -/
structure ChanState (α : Type) where
  queue : List α
  senders : Nat
deriving DecidableEq

/-- Outcome of crossbeam Receiver::recv on a channel state, per the crossbeam
documentation: a queued message is returned even after disconnection; on an
empty queue the call fails with RecvError when every sender has dropped and
otherwise blocks until a message arrives or the channel disconnects. -/
inductive RecvOutcome (α : Type)
  | value (a : α) (rest : List α)
  | disconnected
  | blocked
deriving DecidableEq

/-- Outcome of crossbeam Receiver::try_recv: a queued message, or Empty on an
empty connected channel, or Disconnected on an empty channel with no senders. -/
inductive TryRecvOutcome (α : Type)
  | value (a : α) (rest : List α)
  | empty
  | disconnected
deriving DecidableEq

/-- crossbeam recv on a channel state. -/
def crossbeamRecv {α : Type} (s : ChanState α) : RecvOutcome α :=
  match s.queue with
  | a :: rest => RecvOutcome.value a rest
  | [] => if s.senders = 0 then RecvOutcome.disconnected else RecvOutcome.blocked

/-- crossbeam try_recv on a channel state. -/
def crossbeamTryRecv {α : Type} (s : ChanState α) : TryRecvOutcome α :=
  match s.queue with
  | a :: rest => TryRecvOutcome.value a rest
  | [] => if s.senders = 0 then TryRecvOutcome.disconnected else TryRecvOutcome.empty

/-- Result of TaskChannel::recv: either the call returns an Option value
leaving a remaining queue, or it blocks. -/
inductive TaskRecvResult (α : Type)
  | returns (r : Option α) (rest : List α)
  | blocks
deriving DecidableEq

/-- TaskChannel::recv: Ok(value) maps to Some(value), Err maps to None (the
metrics backlog hook, irrelevant to the returned value, is omitted). -/
def TaskChannel.recv {α : Type} (s : ChanState α) : TaskRecvResult α :=
  match crossbeamRecv s with
  | RecvOutcome.value a rest => TaskRecvResult.returns (some a) rest
  | RecvOutcome.disconnected => TaskRecvResult.returns none s.queue
  | RecvOutcome.blocked => TaskRecvResult.blocks

/-- TaskChannel::try_recv: Ok(value) maps to Some(value); both Empty and
Disconnected map to None, without blocking. -/
def TaskChannel.try_recv {α : Type} (s : ChanState α) : Option α × List α :=
  match crossbeamTryRecv s with
  | TryRecvOutcome.value a rest => (some a, rest)
  | TryRecvOutcome.empty => (none, s.queue)
  | TryRecvOutcome.disconnected => (none, s.queue)

/-- TaskChannel::send: pushes onto the unbounded queue without blocking. -/
def TaskChannel.send {α : Type} (s : ChanState α) (v : α) : ChanState α :=
  { s with queue := s.queue ++ [v] }

-- ===== Task runtime model: scheduler (src/src/runtime/task/scheduler.rs) =====

/-- A scheduled task: either a shutdown sentinel (the no-op closure pushed by
shutdown) or a real user task identified by its id. -/
inductive STask
  | noop
  | real (id : Nat)
deriving DecidableEq

/-- Position of a worker thread inside worker_loop: about to check the
shutdown flag at the top of the loop, past the check and looking for work, or
exited after observing the flag. -/
inductive WPhase
  | checking
  | searching
  | exited
deriving DecidableEq

/-- Shared scheduler state: the shutdown flag, the global injector queue, one
local deque and one loop phase per worker, the ghost list ran of ids of real
tasks that have been executed, the fresh-id counter, and the metrics. -/
structure SchedState where
  shutdown : Bool
  injector : List STask
  locals : List (List STask)
  phases : List WPhase
  ran : List Nat
  nextId : Nat
  metrics : TaskRuntimeMetrics
deriving DecidableEq

/-- Initial state of TaskScheduler::new with n workers: flag clear, empty
injector, every worker with an empty deque at the top of its loop. -/
def SchedState.init (n : Nat) : SchedState :=
  { shutdown := false, injector := [], locals := List.replicate n [],
    phases := List.replicate n WPhase.checking, ran := [], nextId := 0,
    metrics := TaskRuntimeMetrics.new }

/-- Effect of a worker running a task and then calling record_completion: a
real task id is appended to the ghost ran list, a no-op leaves it unchanged. -/
def runTask (s : SchedState) : STask → SchedState
  | STask.noop => { s with metrics := s.metrics.record_completion }
  | STask.real id => { s with ran := s.ran ++ [id],
                              metrics := s.metrics.record_completion }

/-- TaskScheduler::spawn_fn: builds a task with a fresh id, calls
record_spawn, and pushes the task onto the injector, returning the id of the
spawned task; the shutdown flag is not consulted. -/
def TaskScheduler.spawn_fn (s : SchedState) : SchedState × Nat :=
  ({ s with nextId := s.nextId + 1,
            metrics := s.metrics.record_spawn,
            injector := s.injector ++ [STask.real s.nextId] }, s.nextId)

/-- TaskScheduler::shutdown: on the first call (compare_exchange false to
true) sets the flag and pushes one no-op task per worker onto the injector;
later calls do nothing. -/
def TaskScheduler.shutdown (s : SchedState) : SchedState :=
  if s.shutdown then s
  else { s with shutdown := true,
                injector := s.injector ++ List.replicate s.locals.length STask.noop }

/-- Small-step interleaving semantics of the scheduler. spawn and
shutdownCall model client threads calling spawn_fn and shutdown. The worker
steps follow worker_loop: checkExit and checkPass model the shutdown-flag
check at the top of the loop; popLocal pops the worker deque; stealInjector
models injector.steal_batch_and_pop, which moves a batch into the local
deque and runs one stolen task; stealSibling models stealing one task from
another worker; idle models a loop iteration that found no work. -/
inductive SchedStep : SchedState → SchedState → Prop
  | spawn (s : SchedState) : SchedStep s (TaskScheduler.spawn_fn s).1
  | shutdownCall (s : SchedState) : SchedStep s (TaskScheduler.shutdown s)
  | checkExit (s : SchedState) (i : Nat)
      (hph : s.phases.get? i = some WPhase.checking) (hsd : s.shutdown = true) :
      SchedStep s { s with phases := s.phases.set i WPhase.exited }
  | checkPass (s : SchedState) (i : Nat)
      (hph : s.phases.get? i = some WPhase.checking) (hsd : s.shutdown = false) :
      SchedStep s { s with phases := s.phases.set i WPhase.searching }
  | popLocal (s : SchedState) (i : Nat) (t : STask) (rest : List STask)
      (hph : s.phases.get? i = some WPhase.searching)
      (hloc : s.locals.get? i = some (t :: rest)) :
      SchedStep s (runTask { s with locals := s.locals.set i rest,
                                    phases := s.phases.set i WPhase.checking } t)
  | stealInjector (s : SchedState) (i : Nat) (t : STask) (batch rest : List STask)
      (hph : s.phases.get? i = some WPhase.searching)
      (hloc : s.locals.get? i = some [])
      (hinj : s.injector = t :: (batch ++ rest)) :
      SchedStep s (runTask { s with injector := rest,
                                    locals := s.locals.set i batch,
                                    phases := s.phases.set i WPhase.checking } t)
  | stealSibling (s : SchedState) (i j : Nat) (t : STask) (rest : List STask)
      (hph : s.phases.get? i = some WPhase.searching)
      (hloc : s.locals.get? i = some [])
      (hne : j ≠ i)
      (hj : s.locals.get? j = some (t :: rest)) :
      SchedStep s (runTask { s with locals := s.locals.set j rest,
                                    phases := s.phases.set i WPhase.checking } t)
  | idle (s : SchedState) (i : Nat)
      (hph : s.phases.get? i = some WPhase.searching)
      (hloc : s.locals.get? i = some []) :
      SchedStep s { s with phases := s.phases.set i WPhase.checking }

/-- Every worker thread has exited its loop. -/
def allExited (s : SchedState) : Bool :=
  s.phases.all (fun p => decide (p = WPhase.exited))

/-- Fixture: a one-worker scheduler whose worker has already exited. -/
def exitedState1 : SchedState :=
  { shutdown := true, injector := [], locals := [[]], phases := [WPhase.exited],
    ran := [], nextId := 0, metrics := TaskRuntimeMetrics.new }

/-- Strict version of the path order. -/
def pathLt (a b : FsPath) : Prop := pathLe a b = true ∧ a ≠ b

/-- Sample well-formed metadata document used by concrete witnesses. -/
def sampleDoc : YamlDoc :=
  [("key", .str "k"), ("created_at", .str "t"), ("compiler_version", .str "v"),
   ("source", .path [1]), ("imports", .paths []), ("binary_path", .path [2]),
   ("binary_size", .nat 3), ("build_time_ms", .nat 4),
   ("options", .opts ⟨false, false, false⟩), ("linked_crates", .strs [])]

/-- Sample metadata record that `sampleDoc` parses to. -/
def sampleMd : CacheMetadata :=
  ⟨"k", "t", "v", none, [1], [], [2], 3, 4, ⟨false, false, false⟩, []⟩

/-- Metadata document lacking the required `key` field. -/
def missingKeyDoc : YamlDoc :=
  [("created_at", .str "t"), ("compiler_version", .str "v"),
   ("source", .path [1]), ("imports", .paths []), ("binary_path", .path [2]),
   ("binary_size", .nat 3), ("build_time_ms", .nat 4),
   ("options", .opts ⟨false, false, false⟩), ("linked_crates", .strs [])]

/-- Structural token-kind test (NEWLINE, INDENT, DEDENT). -/
def isStructuralTok : TokenKind → Bool
  | .Newline => true
  | .Indent => true
  | .Dedent => true
  | _ => false

-- ===================== THEOREMS =====================

theorem pathLe_total : ∀ a b : FsPath, pathLe a b = true ∨ pathLe b a = true
  | [], _ => by left; rfl
  | _ :: _, [] => by right; rfl
  | a :: as, b :: bs => by
    simp only [pathLe]
    rcases Nat.lt_trichotomy a b with h | h | h
    · left; rw [if_pos h]
    · subst h
      simp only [lt_self_iff_false, if_false]
      exact pathLe_total as bs
    · right; rw [if_pos h]

theorem pathLe_trans : ∀ a b c : FsPath,
    pathLe a b = true → pathLe b c = true → pathLe a c = true
  | [], _, _ => by intros; rfl
  | _ :: _, [], _ => by intro h; simp [pathLe] at h
  | _ :: _, _ :: _, [] => by intro _ h; simp [pathLe] at h
  | a :: as, b :: bs, c :: cs => by
    intro hab hbc
    simp only [pathLe] at hab hbc ⊢
    rcases Nat.lt_trichotomy a b with h1 | h1 | h1
    · rcases Nat.lt_trichotomy b c with h2 | h2 | h2
      · rw [if_pos (Nat.lt_trans h1 h2)]
      · subst h2; rw [if_pos h1]
      · rw [if_neg (Nat.lt_asymm h2), if_pos h2] at hbc
        exact absurd hbc (by simp)
    · subst h1
      rw [if_neg (lt_irrefl a), if_neg (lt_irrefl a)] at hab
      rcases Nat.lt_trichotomy a c with h2 | h2 | h2
      · rw [if_pos h2]
      · subst h2
        rw [if_neg (lt_irrefl a), if_neg (lt_irrefl a)] at hbc ⊢
        exact pathLe_trans as bs cs hab hbc
      · rw [if_neg (Nat.lt_asymm h2), if_pos h2] at hbc
        exact absurd hbc (by simp)
    · rw [if_neg (Nat.lt_asymm h1), if_pos h1] at hab
      exact absurd hab (by simp)

theorem pathLe_antisymm : ∀ a b : FsPath,
    pathLe a b = true → pathLe b a = true → a = b
  | [], [] => by intros; rfl
  | [], _ :: _ => by intro _ h; simp [pathLe] at h
  | _ :: _, [] => by intro h; simp [pathLe] at h
  | a :: as, b :: bs => by
    intro hab hba
    simp only [pathLe] at hab hba
    rcases Nat.lt_trichotomy a b with h | h | h
    · rw [if_neg (Nat.lt_asymm h), if_pos h] at hba
      exact absurd hba (by simp)
    · subst h
      rw [if_neg (lt_irrefl a), if_neg (lt_irrefl a)] at hab hba
      rw [pathLe_antisymm as bs hab hba]
    · rw [if_neg (Nat.lt_asymm h), if_pos h] at hab
      exact absurd hab (by simp)

instance : IsTotal FsPath (fun a b => pathLe a b = true) := ⟨pathLe_total⟩

instance : IsTrans FsPath (fun a b => pathLe a b = true) := ⟨pathLe_trans⟩

instance : IsAntisymm FsPath (fun a b => pathLe a b = true) := ⟨pathLe_antisymm⟩

theorem sortFiles_sorted (l : List FsPath) :
    List.Sorted (fun a b => pathLe a b = true) (sortFiles l) :=
  List.sorted_insertionSort _ l

theorem sortFiles_perm (l : List FsPath) : (sortFiles l).Perm l :=
  List.perm_insertionSort _ l

theorem mem_cons_dedupAdjAux : ∀ (l : List FsPath) (p x : FsPath),
    x ∈ p :: dedupAdjAux p l ↔ x ∈ p :: l := by
  intro l
  induction l with
  | nil => intro p x; rfl
  | cons b rest ih =>
    intro p x
    by_cases hpb : p = b
    · subst hpb
      simp only [dedupAdjAux, eq_self_iff_true, if_true]
      rw [ih p x]
      simp only [List.mem_cons]
      tauto
    · simp only [dedupAdjAux, if_neg hpb]
      constructor
      · intro hx
        rcases List.mem_cons.mp hx with hxp | hx'
        · exact hxp ▸ List.mem_cons_self _ _
        · have : x ∈ b :: rest := (ih b x).mp hx'
          exact List.mem_cons_of_mem _ this
      · intro hx
        rcases List.mem_cons.mp hx with hxp | hx'
        · exact hxp ▸ List.mem_cons_self _ _
        · exact List.mem_cons_of_mem _ ((ih b x).mpr hx')

theorem mem_dedupAdj : ∀ l : List FsPath, ∀ x, x ∈ dedupAdj l ↔ x ∈ l := by
  intro l x
  cases l with
  | nil => rfl
  | cons a rest => exact mem_cons_dedupAdjAux rest a x

theorem dedupAdjAux_sorted : ∀ (l : List FsPath) (p : FsPath),
    List.Sorted (fun a b => pathLe a b = true) (p :: l) →
    List.Sorted pathLt (p :: dedupAdjAux p l) := by
  intro l
  induction l with
  | nil => intro p _; simp [dedupAdjAux]
  | cons b rest ih =>
    intro p hs
    rw [List.sorted_cons] at hs
    obtain ⟨h1, hs'⟩ := hs
    by_cases hpb : p = b
    · subst hpb
      simp only [dedupAdjAux, eq_self_iff_true, if_true]
      apply ih
      rw [List.sorted_cons] at hs' ⊢
      exact ⟨fun x hx => h1 x (List.mem_cons_of_mem _ hx), hs'.2⟩
    · simp only [dedupAdjAux, if_neg hpb]
      have hbs : List.Sorted pathLt (b :: dedupAdjAux b rest) := ih b hs'
      rw [List.sorted_cons]
      refine ⟨?_, ?_⟩
      · intro x hx
        rcases List.mem_cons.mp hx with hxb | hx'
        · exact hxb ▸ ⟨h1 b (List.mem_cons_self b rest), hpb⟩
        · have hxmem : x ∈ b :: rest :=
            (mem_cons_dedupAdjAux rest b x).mp (List.mem_cons_of_mem _ hx')
          refine ⟨h1 x hxmem, ?_⟩
          intro hpx
          subst hpx
          rw [List.sorted_cons] at hs'
          rcases List.mem_cons.mp hxmem with hpb' | hpr
          · exact hpb hpb'
          · exact hpb (pathLe_antisymm p b (h1 b (List.mem_cons_self b rest)) (hs'.1 p hpr))
      · exact hbs

theorem dedupAdj_sorted : ∀ l : List FsPath,
    List.Sorted (fun a b => pathLe a b = true) l →
    List.Sorted pathLt (dedupAdj l) := by
  intro l hs
  cases l with
  | nil => simp [dedupAdj]
  | cons a rest => exact dedupAdjAux_sorted rest a hs

theorem strictSorted_eq_of_mem_iff : ∀ l₁ l₂ : List FsPath,
    List.Sorted pathLt l₁ → List.Sorted pathLt l₂ →
    (∀ x, x ∈ l₁ ↔ x ∈ l₂) → l₁ = l₂ := by
  intro l₁
  induction l₁ with
  | nil =>
    intro l₂ _ _ hmem
    cases l₂ with
    | nil => rfl
    | cons b t₂ => exact absurd ((hmem b).mpr (List.mem_cons_self b t₂)) (by simp)
  | cons a t₁ ih =>
    intro l₂ hs₁ hs₂ hmem
    cases l₂ with
    | nil => exact absurd ((hmem a).mp (List.mem_cons_self a t₁)) (by simp)
    | cons b t₂ =>
      rw [List.sorted_cons] at hs₁ hs₂
      have hab : a = b := by
        by_contra hne
        have ha : a ∈ b :: t₂ := (hmem a).mp (List.mem_cons_self a t₁)
        have hb : b ∈ a :: t₁ := (hmem b).mpr (List.mem_cons_self b t₂)
        rcases List.mem_cons.mp ha with h | h
        · exact hne h
        · rcases List.mem_cons.mp hb with h' | h'
          · exact hne h'.symm
          · have h1 := hs₂.1 a h
            have h2 := hs₁.1 b h'
            exact h1.2 (pathLe_antisymm b a h1.1 h2.1)
      subst hab
      have htail : ∀ x, x ∈ t₁ ↔ x ∈ t₂ := by
        intro x
        constructor
        · intro hx
          rcases List.mem_cons.mp ((hmem x).mp (List.mem_cons_of_mem a hx)) with h | h
          · exact absurd h.symm (hs₁.1 x hx).2
          · exact h
        · intro hx
          rcases List.mem_cons.mp ((hmem x).mpr (List.mem_cons_of_mem a hx)) with h | h
          · exact absurd h.symm (hs₂.1 x hx).2
          · exact h
      rw [ih t₂ hs₁.2 hs₂.2 htail]

/-- The sorted, deduplicated canonical form depends only on the set of
members of the input list. -/
theorem sortDedup_eq_of_mem_iff (l₁ l₂ : List FsPath)
    (h : ∀ x, x ∈ l₁ ↔ x ∈ l₂) :
    dedupAdj (sortFiles l₁) = dedupAdj (sortFiles l₂) := by
  apply strictSorted_eq_of_mem_iff
  · exact dedupAdj_sorted _ (sortFiles_sorted l₁)
  · exact dedupAdj_sorted _ (sortFiles_sorted l₂)
  · intro x
    rw [mem_dedupAdj, mem_dedupAdj, (sortFiles_perm l₁).mem_iff,
      (sortFiles_perm l₂).mem_iff]
    exact h x

theorem collectCanon_success_all : ∀ (c : FsPath → Option FsPath) (l : List FsPath)
    (r : List FsPath), collectCanon c l = some r →
    ∀ p ∈ l, ∃ q, c p = some q := by
  intro c l
  induction l with
  | nil => intro r _ p hp; simp at hp
  | cons a t ih =>
    intro r h p hp
    simp only [collectCanon] at h
    cases hc : c a with
    | none => rw [hc] at h; simp at h
    | some q =>
      rw [hc] at h
      cases ht : collectCanon c t with
      | none => rw [ht] at h; simp at h
      | some qs =>
        rcases List.mem_cons.mp hp with hpa | hpt
        · exact ⟨q, hpa ▸ hc⟩
        · exact ih qs ht p hpt

theorem collectCanon_isSome (c : FsPath → Option FsPath) (l : List FsPath)
    (h : ∀ p ∈ l, ∃ q, c p = some q) :
    ∃ r, collectCanon c l = some r := by
  induction l with
  | nil => exact ⟨[], rfl⟩
  | cons a t ih =>
    obtain ⟨q, hq⟩ := h a (List.mem_cons_self a t)
    obtain ⟨r, hr⟩ := ih (fun p hp => h p (List.mem_cons_of_mem a hp))
    exact ⟨q :: r, by simp [collectCanon, hq, hr]⟩

theorem collectCanon_mem : ∀ (c : FsPath → Option FsPath) (l : List FsPath)
    (r : List FsPath), collectCanon c l = some r →
    ∀ x, (x ∈ r ↔ ∃ p ∈ l, c p = some x) := by
  intro c l
  induction l with
  | nil =>
    intro r h x
    simp only [collectCanon] at h
    cases h
    simp
  | cons a t ih =>
    intro r h x
    simp only [collectCanon] at h
    cases hc : c a with
    | none => rw [hc] at h; simp at h
    | some q =>
      rw [hc] at h
      cases ht : collectCanon c t with
      | none => rw [ht] at h; simp at h
      | some qs =>
        rw [ht] at h
        cases h
        rw [List.mem_cons, ih qs ht x]
        constructor
        · rintro (hxq | ⟨p, hp, hcp⟩)
          · exact ⟨a, List.mem_cons_self a t, hxq ▸ hc⟩
          · exact ⟨p, List.mem_cons_of_mem a hp, hcp⟩
        · rintro ⟨p, hp, hcp⟩
          rcases List.mem_cons.mp hp with hpa | hpt
          · subst hpa
            rw [hc] at hcp
            exact Or.inl (Option.some_injective _ hcp).symm
          · exact Or.inr ⟨p, hpt, hcp⟩

/-- C1: for every set of input files, build options, and compiler-version
string on which `CacheManager::fingerprint` succeeds, a second run returns
the same cache key, and the key is unchanged under any permutation or
duplication of the imports list (any reordering that preserves the set of
imported paths), because the input path list is canonicalized, sorted and
deduplicated before hashing. -/
theorem C1_fingerprint_deterministic_order_independent
    (env : FpEnv) (primary : FsPath) (imports : List FsPath)
    (options : CacheBuildOptions) (ver : String) (k : CacheKey)
    (h : CacheManager.fingerprint env ⟨primary, imports⟩ options ver = some k) :
    CacheManager.fingerprint env ⟨primary, imports⟩ options ver = some k ∧
    ∀ imports' : List FsPath, (∀ p, p ∈ imports' ↔ p ∈ imports) →
      CacheManager.fingerprint env ⟨primary, imports'⟩ options ver = some k := by
  refine ⟨h, ?_⟩
  intro imports' hmem
  unfold CacheManager.fingerprint at h ⊢
  cases hc : collectCanon env.canon (CompilationInputs.all_files ⟨primary, imports⟩) with
  | none => rw [hc] at h; simp at h
  | some files =>
    rw [hc] at h
    have hsucc : ∀ p ∈ CompilationInputs.all_files ⟨primary, imports'⟩,
        ∃ q, env.canon p = some q := by
      intro p hp
      apply collectCanon_success_all env.canon _ files hc
      simp only [CompilationInputs.all_files] at hp ⊢
      rcases List.mem_cons.mp hp with hpp | hpi
      · exact hpp ▸ List.mem_cons_self _ _
      · exact List.mem_cons_of_mem _ ((hmem p).mp hpi)
    obtain ⟨files', hc'⟩ := collectCanon_isSome env.canon _ hsucc
    rw [hc']
    have hfiles : dedupAdj (sortFiles files') = dedupAdj (sortFiles files) := by
      apply sortDedup_eq_of_mem_iff
      intro x
      rw [collectCanon_mem env.canon _ files' hc' x,
        collectCanon_mem env.canon _ files hc x]
      simp only [CompilationInputs.all_files, List.mem_cons]
      constructor
      · rintro ⟨p, hp | hp, hcp⟩
        · exact ⟨p, Or.inl hp, hcp⟩
        · exact ⟨p, Or.inr ((hmem p).mp hp), hcp⟩
      · rintro ⟨p, hp | hp, hcp⟩
        · exact ⟨p, Or.inl hp, hcp⟩
        · exact ⟨p, Or.inr ((hmem p).mpr hp), hcp⟩
    simp only [Option.bind] at h ⊢
    rw [hfiles]
    exact h

/-- C1 witness: a concrete environment, input set and a reordered and
duplicated list of imports on which the theorem applies. -/
theorem C1_fingerprint_witness :
    CacheManager.fingerprint ⟨fun p => some p, fun _ => some [7]⟩
      ⟨[1], [[3], [2], [2]]⟩ ⟨false, false, false⟩ "v1" =
    CacheManager.fingerprint ⟨fun p => some p, fun _ => some [7]⟩
      ⟨[1], [[2], [3]]⟩ ⟨false, false, false⟩ "v1" := by
  have hs : (CacheManager.fingerprint ⟨fun p => some p, fun _ => some [7]⟩
      ⟨[1], [[2], [3]]⟩ ⟨false, false, false⟩ "v1").isSome = true := by decide
  obtain ⟨k, hk⟩ := Option.isSome_iff_exists.mp hs
  rw [hk, (C1_fingerprint_deterministic_order_independent _ [1] [[2], [3]] _ "v1" _ hk).2
    [[3], [2], [2]] (by intro p; simp only [List.mem_cons]; tauto)]

theorem exceptBind_ok {ε α β : Type} (a : α) (f : α → Except ε β) :
    (Except.ok a >>= f) = f a := rfl

theorem exceptBind_error {ε α β : Type} (e : ε) (f : α → Except ε β) :
    ((Except.error e : Except ε α) >>= f) = Except.error e := rfl

theorem exceptMap_ok {ε α β : Type} (f : α → β) (a : α) :
    (f <$> (Except.ok a : Except ε α)) = Except.ok (f a) := rfl

theorem exceptMap_error {ε α β : Type} (f : α → β) (e : ε) :
    (f <$> (Except.error e : Except ε α)) = Except.error e := rfl

/-- C2: `CacheManager::lookup` reports a miss when the metadata file for the
key is absent, or when the artifact path recorded in the parsed metadata
does not exist on disk; whenever it reports a hit, it returns the parsed
metadata together with an artifact path that exists on disk at lookup
time. -/
theorem C2_lookup_miss_hit_characterization (fs : CacheFs) (key : String) :
    (fs.metaDoc key = none → CacheManager.lookup fs key = .ok none) ∧
    (∀ doc md, fs.metaDoc key = some doc →
      CacheMetadata.read_from_yaml doc = .ok md →
      fs.pathExists md.binary_path = false →
      CacheManager.lookup fs key = .ok none) ∧
    (∀ e, CacheManager.lookup fs key = .ok (some e) →
      fs.pathExists e.binary_path = true ∧
      ∃ doc, fs.metaDoc key = some doc ∧
        CacheMetadata.read_from_yaml doc = .ok e.metadata ∧
        e.binary_path = e.metadata.binary_path ∧ e.key = key) := by
  refine ⟨?_, ?_, ?_⟩
  · intro h
    simp [CacheManager.lookup, h]
  · intro doc md hdoc hparse hexists
    simp [CacheManager.lookup, hdoc, hparse, hexists]
  · intro e he
    unfold CacheManager.lookup at he
    cases hdoc : fs.metaDoc key with
    | none => rw [hdoc] at he; simp at he
    | some doc =>
      rw [hdoc] at he
      simp only [] at he
      cases hp : CacheMetadata.read_from_yaml doc with
      | error err => rw [hp] at he; simp at he
      | ok md =>
        rw [hp] at he
        simp only [] at he
        by_cases hx : fs.pathExists md.binary_path
        · rw [if_pos hx] at he
          simp only [Except.ok.injEq, Option.some.injEq] at he
          subst he
          exact ⟨hx, doc, rfl, hp, rfl, rfl⟩
        · rw [if_neg hx] at he
          simp at he

/-- C2 witness: the three branches of the lookup characterization realized
on concrete filesystem states. -/
theorem C2_lookup_witness :
    CacheManager.lookup ⟨fun _ => none, fun _ => false⟩ "k" = .ok none ∧
    CacheManager.lookup ⟨fun _ => some sampleDoc, fun _ => false⟩ "k" = .ok none ∧
    (⟨fun _ => some sampleDoc, fun p => decide (p = [2])⟩ : CacheFs).pathExists
      (⟨"k", sampleMd, [2]⟩ : CacheEntry).binary_path = true := by
  refine ⟨?_, ?_, ?_⟩
  · exact (C2_lookup_miss_hit_characterization ⟨fun _ => none, fun _ => false⟩ "k").1 rfl
  · exact (C2_lookup_miss_hit_characterization
      ⟨fun _ => some sampleDoc, fun _ => false⟩ "k").2.1 sampleDoc sampleMd rfl (by decide) rfl
  · exact ((C2_lookup_miss_hit_characterization
      ⟨fun _ => some sampleDoc, fun p => decide (p = [2])⟩ "k").2.2
      ⟨"k", sampleMd, [2]⟩ (by decide)).1

theorem yamlGet_append_of_ne (doc extra : YamlDoc) (name : String)
    (hextra : ∀ kv ∈ extra, kv.1 ≠ name) :
    yamlGet (doc ++ extra) name = yamlGet doc name := by
  unfold yamlGet
  rw [List.find?_append]
  have hnone : extra.find? (fun kv => kv.1 = name) = none := by
    rw [List.find?_eq_none]
    intro kv hkv
    simp only [decide_eq_true_eq]
    exact hextra kv hkv
  rw [hnone]
  cases doc.find? (fun kv => kv.1 = name) <;> rfl

theorem fieldStr_congr {d₁ d₂ : YamlDoc} {n : String}
    (h : yamlGet d₁ n = yamlGet d₂ n) : fieldStr d₁ n = fieldStr d₂ n := by
  unfold fieldStr; rw [h]

theorem fieldOptStr_congr {d₁ d₂ : YamlDoc} {n : String}
    (h : yamlGet d₁ n = yamlGet d₂ n) : fieldOptStr d₁ n = fieldOptStr d₂ n := by
  unfold fieldOptStr; rw [h]

theorem fieldNat_congr {d₁ d₂ : YamlDoc} {n : String}
    (h : yamlGet d₁ n = yamlGet d₂ n) : fieldNat d₁ n = fieldNat d₂ n := by
  unfold fieldNat; rw [h]

theorem fieldPath_congr {d₁ d₂ : YamlDoc} {n : String}
    (h : yamlGet d₁ n = yamlGet d₂ n) : fieldPath d₁ n = fieldPath d₂ n := by
  unfold fieldPath; rw [h]

theorem fieldPaths_congr {d₁ d₂ : YamlDoc} {n : String}
    (h : yamlGet d₁ n = yamlGet d₂ n) : fieldPaths d₁ n = fieldPaths d₂ n := by
  unfold fieldPaths; rw [h]

theorem fieldStrs_congr {d₁ d₂ : YamlDoc} {n : String}
    (h : yamlGet d₁ n = yamlGet d₂ n) : fieldStrs d₁ n = fieldStrs d₂ n := by
  unfold fieldStrs; rw [h]

theorem fieldOpts_congr {d₁ d₂ : YamlDoc} {n : String}
    (h : yamlGet d₁ n = yamlGet d₂ n) : fieldOpts d₁ n = fieldOpts d₂ n := by
  unfold fieldOpts; rw [h]

/-- Unknown trailing fields do not change deserialization. -/
theorem read_from_yaml_ignores_unknown (doc extra : YamlDoc)
    (hextra : ∀ kv ∈ extra, kv.1 ∉ knownFieldNames) :
    CacheMetadata.read_from_yaml (doc ++ extra) = CacheMetadata.read_from_yaml doc := by
  have hget : ∀ name ∈ knownFieldNames, yamlGet (doc ++ extra) name = yamlGet doc name := by
    intro name hname
    apply yamlGet_append_of_ne
    intro kv hkv heq
    exact hextra kv hkv (heq ▸ hname)
  unfold CacheMetadata.read_from_yaml
  rw [fieldStr_congr (hget "key" (by decide)),
    fieldStr_congr (hget "created_at" (by decide)),
    fieldStr_congr (hget "compiler_version" (by decide)),
    fieldOptStr_congr (hget "llvm_version" (by decide)),
    fieldPath_congr (hget "source" (by decide)),
    fieldPaths_congr (hget "imports" (by decide)),
    fieldPath_congr (hget "binary_path" (by decide)),
    fieldNat_congr (hget "binary_size" (by decide)),
    fieldNat_congr (hget "build_time_ms" (by decide)),
    fieldOpts_congr (hget "options" (by decide)),
    fieldStrs_congr (hget "linked_crates" (by decide))]

theorem fieldStr_ok_present {doc : YamlDoc} {n : String} {s : String}
    (h : fieldStr doc n = .ok s) : (yamlGet doc n).isSome = true := by
  unfold fieldStr at h
  cases hg : yamlGet doc n with
  | none => rw [hg] at h; simp at h
  | some v => simp

theorem fieldNat_ok_present {doc : YamlDoc} {n : String} {v : Nat}
    (h : fieldNat doc n = .ok v) : (yamlGet doc n).isSome = true := by
  unfold fieldNat at h
  cases hg : yamlGet doc n with
  | none => rw [hg] at h; simp at h
  | some w => simp

theorem fieldPath_ok_present {doc : YamlDoc} {n : String} {v : FsPath}
    (h : fieldPath doc n = .ok v) : (yamlGet doc n).isSome = true := by
  unfold fieldPath at h
  cases hg : yamlGet doc n with
  | none => rw [hg] at h; simp at h
  | some w => simp

theorem fieldPaths_ok_present {doc : YamlDoc} {n : String} {v : List FsPath}
    (h : fieldPaths doc n = .ok v) : (yamlGet doc n).isSome = true := by
  unfold fieldPaths at h
  cases hg : yamlGet doc n with
  | none => rw [hg] at h; simp at h
  | some w => simp

theorem fieldStrs_ok_present {doc : YamlDoc} {n : String} {v : List String}
    (h : fieldStrs doc n = .ok v) : (yamlGet doc n).isSome = true := by
  unfold fieldStrs at h
  cases hg : yamlGet doc n with
  | none => rw [hg] at h; simp at h
  | some w => simp

theorem fieldOpts_ok_present {doc : YamlDoc} {n : String} {v : CacheBuildOptions}
    (h : fieldOpts doc n = .ok v) : (yamlGet doc n).isSome = true := by
  unfold fieldOpts at h
  cases hg : yamlGet doc n with
  | none => rw [hg] at h; simp at h
  | some w => simp

/-- Successful deserialization requires every required field to be
present. -/
theorem read_from_yaml_ok_required (doc : YamlDoc) (md : CacheMetadata)
    (h : CacheMetadata.read_from_yaml doc = .ok md) :
    ∀ name ∈ requiredFieldNames, (yamlGet doc name).isSome = true := by
  rw [CacheMetadata.read_from_yaml] at h
  cases h1 : fieldStr doc "key" with
  | error e => rw [h1, exceptBind_error] at h; simp at h
  | ok v1 =>
  rw [h1, exceptBind_ok] at h
  cases h2 : fieldStr doc "created_at" with
  | error e => rw [h2, exceptBind_error] at h; simp at h
  | ok v2 =>
  rw [h2, exceptBind_ok] at h
  cases h3 : fieldStr doc "compiler_version" with
  | error e => rw [h3, exceptBind_error] at h; simp at h
  | ok v3 =>
  rw [h3, exceptBind_ok] at h
  cases h4 : fieldOptStr doc "llvm_version" with
  | error e => rw [h4, exceptBind_error] at h; simp at h
  | ok v4 =>
  rw [h4, exceptBind_ok] at h
  cases h5 : fieldPath doc "source" with
  | error e => rw [h5, exceptBind_error] at h; simp at h
  | ok v5 =>
  rw [h5, exceptBind_ok] at h
  cases h6 : fieldPaths doc "imports" with
  | error e => rw [h6, exceptBind_error] at h; simp at h
  | ok v6 =>
  rw [h6, exceptBind_ok] at h
  cases h7 : fieldPath doc "binary_path" with
  | error e => rw [h7, exceptBind_error] at h; simp at h
  | ok v7 =>
  rw [h7, exceptBind_ok] at h
  cases h8 : fieldNat doc "binary_size" with
  | error e => rw [h8, exceptBind_error] at h; simp at h
  | ok v8 =>
  rw [h8, exceptBind_ok] at h
  cases h9 : fieldNat doc "build_time_ms" with
  | error e => rw [h9, exceptBind_error] at h; simp at h
  | ok v9 =>
  rw [h9, exceptBind_ok] at h
  cases h10 : fieldOpts doc "options" with
  | error e => rw [h10, exceptBind_error] at h; simp at h
  | ok v10 =>
  rw [h10, exceptBind_ok] at h
  cases h11 : fieldStrs doc "linked_crates" with
  | error e => rw [h11, exceptBind_error] at h; simp at h
  | ok v11 =>
  intro name hname
  simp only [requiredFieldNames, List.mem_cons, List.not_mem_nil, or_false] at hname
  rcases hname with rfl | rfl | rfl | rfl | rfl | rfl | rfl | rfl | rfl | rfl
  · exact fieldStr_ok_present h1
  · exact fieldStr_ok_present h2
  · exact fieldStr_ok_present h3
  · exact fieldPath_ok_present h5
  · exact fieldPaths_ok_present h6
  · exact fieldPath_ok_present h7
  · exact fieldNat_ok_present h8
  · exact fieldNat_ok_present h9
  · exact fieldOpts_ok_present h10
  · exact fieldStrs_ok_present h11

/-- C3 (amended): when cache metadata is read during lookup, unknown fields
in the metadata document are ignored, and a document missing a required
field is a parse error whose effect is that lookup fails with that error
(`lookup` propagates it through `?`), rather than treating the entry as
absent. -/
theorem C3_metadata_forward_compat_amended :
    (∀ doc extra : YamlDoc, (∀ kv ∈ extra, kv.1 ∉ knownFieldNames) →
      CacheMetadata.read_from_yaml (doc ++ extra) = CacheMetadata.read_from_yaml doc) ∧
    (∀ doc : YamlDoc, ∀ name ∈ requiredFieldNames, yamlGet doc name = none →
      ∃ e, CacheMetadata.read_from_yaml doc = .error e) ∧
    (∀ (fs : CacheFs) (key : String) (doc : YamlDoc) (e : YamlError),
      fs.metaDoc key = some doc → CacheMetadata.read_from_yaml doc = .error e →
      CacheManager.lookup fs key = .error e) := by
  refine ⟨read_from_yaml_ignores_unknown, ?_, ?_⟩
  · intro doc name hname hnone
    cases hr : CacheMetadata.read_from_yaml doc with
    | error e => exact ⟨e, rfl⟩
    | ok md =>
      have hpres := read_from_yaml_ok_required doc md hr name hname
      rw [hnone] at hpres
      simp at hpres
  · intro fs key doc e hdoc herr
    simp [CacheManager.lookup, hdoc, herr]

/-- C3 counterexample: on a concrete store whose metadata document lacks
the required `key` field, lookup returns a parse error — it does not
report a miss (`Except.ok none`) as the claim states. -/
theorem C3_parse_error_not_miss_counterexample :
    CacheManager.lookup ⟨fun _ => some missingKeyDoc, fun _ => true⟩ "k" =
      .error (.missingField "key") ∧
    CacheManager.lookup ⟨fun _ => some missingKeyDoc, fun _ => true⟩ "k" ≠
      .ok none := by
  exact ⟨by decide, by decide⟩

/-- C3 witness: the amended theorem applied at concrete documents. -/
theorem C3_metadata_forward_compat_witness :
    CacheMetadata.read_from_yaml (sampleDoc ++ [("extra_field", .nat 9)]) =
      CacheMetadata.read_from_yaml sampleDoc ∧
    (∃ e, CacheMetadata.read_from_yaml missingKeyDoc = .error e) ∧
    CacheManager.lookup ⟨fun _ => some missingKeyDoc, fun _ => true⟩ "k" =
      .error (.missingField "key") := by
  refine ⟨C3_metadata_forward_compat_amended.1 sampleDoc [("extra_field", .nat 9)] ?_,
    C3_metadata_forward_compat_amended.2.1 missingKeyDoc "key" (by decide) (by decide),
    C3_metadata_forward_compat_amended.2.2 _ "k" missingKeyDoc (.missingField "key")
      rfl (by decide)⟩
  intro kv hkv
  simp only [List.mem_cons, List.not_mem_nil, or_false] at hkv
  subst hkv
  decide

theorem dropWhile_eq_drop_len (p : Nat → Bool) : ∀ l : List Nat,
    l.dropWhile p = l.drop (l.takeWhile p).length := by
  intro l
  induction l with
  | nil => rfl
  | cons a t ih =>
    by_cases h : p a
    · simp [List.dropWhile_cons, List.takeWhile_cons, h, ih]
    · simp [List.dropWhile_cons, List.takeWhile_cons, h]


theorem scanIndent_fst (lo ln : Nat) : ∀ (bytes : List Nat) (idx w c : Nat),
    (scanIndent lo ln bytes idx w c).1 = idx + (bytes.takeWhile isIndentB).length := by
  intro bytes
  induction bytes with
  | nil => intro idx w c; simp [scanIndent]
  | cons b rest ih =>
    intro idx w c
    by_cases h32 : b = 32
    · subst h32
      have h1 : (scanIndent lo ln (32 :: rest) idx w c).1 =
          (scanIndent lo ln rest (idx + 1) (w + 1) (c + 1)).1 := by
        simp [scanIndent]
      rw [h1, ih, List.takeWhile_cons]
      have h2 : isIndentB 32 = true := rfl
      rw [h2]
      simp
      omega
    · by_cases h9 : b = 9
      · subst h9
        have h1 : (scanIndent lo ln (9 :: rest) idx w c).1 =
            (scanIndent lo ln rest (idx + 1) w (c + 1)).1 := by
          simp [scanIndent]
        rw [h1, ih, List.takeWhile_cons]
        have h2 : isIndentB 9 = true := rfl
        rw [h2]
        simp
        omega
      · have h1 : (scanIndent lo ln (b :: rest) idx w c).1 = idx := by
          simp [scanIndent, h32, h9]
        rw [h1, List.takeWhile_cons]
        have h2 : isIndentB b = false := by
          simp [isIndentB, h32, h9]
        rw [h2]
        simp

set_option maxHeartbeats 1600000 in
theorem lexRest_not_structural (lo ln len : Nat) (i : Nat) (bytes : List Nat) :
    ∀ t ∈ (lexRest lo ln len i bytes).1, isStructuralTok t.kind = false := by
  induction i, bytes using lexRest.induct lo ln len with
  | case1 x => intro t ht; simp [lexRest] at ht
  | case2 i b rest h ih =>
    intro t ht
    rw [lexRest, if_pos h] at ht
    exact ih t ht
  | case3 i rest h =>
    intro t ht
    rw [lexRest] at ht
    simp at ht
  | case4 i rest h1 h2 ih =>
    intro t ht
    rw [lexRest] at ht
    simp at ht
    rcases ht with rfl | ht'
    · rfl
    · exact ih t ht'
  | case5 i rest h1 h2 h3 ih =>
    intro t ht
    rw [lexRest] at ht
    simp at ht
    rcases ht with rfl | ht'
    · rfl
    · exact ih t ht'
  | case6 i rest h1 h2 h3 h4 ih =>
    intro t ht
    rw [lexRest] at ht
    simp at ht
    rcases ht with rfl | ht'
    · rfl
    · exact ih t ht'
  | case7 i rest h1 h2 h3 h4 h5 ih =>
    intro t ht
    rw [lexRest] at ht
    simp at ht
    rcases ht with rfl | ht'
    · rfl
    · exact ih t ht'
  | case8 i rest h1 h2 h3 h4 h5 h6 ih =>
    intro t ht
    rw [lexRest] at ht
    simp at ht
    rcases ht with rfl | ht'
    · rfl
    · exact ih t ht'
  | case9 i rest h1 h2 h3 h4 h5 h6 h7 ih =>
    intro t ht
    rw [lexRest] at ht
    simp at ht
    rcases ht with rfl | ht'
    · rfl
    · exact ih t ht'
  | case10 i rest h1 h2 h3 h4 h5 h6 h7 h8 ih =>
    intro t ht
    rw [lexRest] at ht
    simp at ht
    rcases ht with rfl | ht'
    · rfl
    · exact ih t ht'
  | case11 i rest h1 h2 h3 h4 h5 h6 h7 h8 h9 ih =>
    intro t ht
    rw [lexRest] at ht
    simp at ht
    rcases ht with rfl | ht'
    · rfl
    · exact ih t ht'
  | case12 i rest h1 h2 h3 h4 h5 h6 h7 h8 h9 h10 ih =>
    intro t ht
    rw [lexRest] at ht
    simp at ht
    rcases ht with rfl | ht'
    · rfl
    · exact ih t ht'
  | case13 i rest content hterm h1 h2 h3 h4 h5 h6 h7 h8 h9 h10 h11 =>
    intro t ht
    rw [lexRest] at ht
    have hterm2 : (List.takeWhile (fun c => decide (c ≠ 34)) rest).length = rest.length :=
      hterm
    simp only [ne_eq, decide_not] at hterm2
    simp [hterm2] at ht
  | case14 i rest content hterm h1 h2 h3 h4 h5 h6 h7 h8 h9 h10 h11 ih =>
    intro t ht
    rw [lexRest] at ht
    have hterm2 : ¬ (List.takeWhile (fun c => decide (c ≠ 34)) rest).length = rest.length :=
      hterm
    simp only [ne_eq, decide_not] at hterm2
    simp [hterm2] at ht
    rcases ht with rfl | ht'
    · rfl
    · refine ih t ?_
      show t ∈ (lexRest lo ln len
        (i + (List.takeWhile (fun c => decide (c ≠ 34)) rest).length + 2)
        (List.drop ((List.takeWhile (fun c => decide (c ≠ 34)) rest).length + 1) rest)).1
      simpa using ht'
  | case15 i b rest h1 h2 h3 h4 h5 h6 h7 h8 h9 h10 h11 h12 hdig ds1 after tail heq rest2 ds2 lexeme ih =>
    intro t ht
    rw [lexRest] at ht
    have heq2 : List.drop (List.takeWhile isDigitB rest).length rest = 46 :: tail := heq
    simp only [h1, h2, h3, h4, h5, h6, h7, h8, h9, h10, h11, h12, hdig,
      if_false, if_true, ite_false, ite_true] at ht
    rw [heq2] at ht
    simp only [] at ht
    rcases List.mem_cons.mp ht with rfl | ht'
    · rfl
    · exact ih t ht'
  | case16 i b rest h1 h2 h3 h4 h5 h6 h7 h8 h9 h10 h11 h12 hdig ds1 after hne lexeme ih =>
    intro t ht
    rw [lexRest] at ht
    simp only [h1, h2, h3, h4, h5, h6, h7, h8, h9, h10, h11, h12, hdig,
      if_false, if_true, ite_false, ite_true] at ht
    rcases List.mem_cons.mp ht with rfl | ht'
    · rfl
    · exact ih t ht'
  | case17 i b rest h1 h2 h3 h4 h5 h6 h7 h8 h9 h10 h11 h12 hdig halpha ident lexeme ih =>
    intro t ht
    rw [lexRest] at ht
    simp only [h1, h2, h3, h4, h5, h6, h7, h8, h9, h10, h11, h12, hdig, halpha,
      if_false, if_true, ite_false, ite_true] at ht
    rcases List.mem_cons.mp ht with rfl | ht'
    · split_ifs <;> rfl
    · exact ih t ht'
  | case18 i b rest h1 h2 h3 h4 h5 h6 h7 h8 h9 h10 h11 h12 hdig halpha ih =>
    intro t ht
    rw [lexRest] at ht
    simp only [h1, h2, h3, h4, h5, h6, h7, h8, h9, h10, h11, h12, hdig, halpha,
      if_false, if_true, ite_false, ite_true] at ht
    exact ih t ht

theorem countKind_nil (k : TokenKind) : countKind k [] = 0 := rfl

theorem countKind_append (k : TokenKind) (l₁ l₂ : List Token) :
    countKind k (l₁ ++ l₂) = countKind k l₁ + countKind k l₂ :=
  List.countP_append _ l₁ l₂

theorem countKind_eq_zero {k : TokenKind} {ts : List Token}
    (h : ∀ t ∈ ts, t.kind ≠ k) : countKind k ts = 0 := by
  rw [countKind, List.countP_eq_zero]
  intro t ht
  simp [h t ht]

theorem countKind_zero_of_not_structural {ts : List Token}
    (h : ∀ t ∈ ts, isStructuralTok t.kind = false) :
    countKind .Newline ts = 0 ∧ countKind .Indent ts = 0 ∧ countKind .Dedent ts = 0 := by
  refine ⟨countKind_eq_zero ?_, countKind_eq_zero ?_, countKind_eq_zero ?_⟩ <;>
    (intro t ht heq; have := h t ht; rw [heq] at this; simp [isStructuralTok] at this)

theorem countKind_all_dedent {ts : List Token}
    (h : ∀ t ∈ ts, t.kind = .Dedent) :
    countKind .Dedent ts = ts.length ∧ countKind .Newline ts = 0 ∧
      countKind .Indent ts = 0 := by
  refine ⟨?_, countKind_eq_zero ?_, countKind_eq_zero ?_⟩
  · rw [countKind, List.countP_eq_length]
    intro t ht
    simp [h t ht]
  · intro t ht heq
    rw [h t ht] at heq
    exact TokenKind.noConfusion heq
  · intro t ht heq
    rw [h t ht] at heq
    exact TokenKind.noConfusion heq

theorem popDedents_spec (lo cur : Nat) : ∀ stack : List Nat,
    (∀ t ∈ (popDedents lo cur stack).1, t.kind = .Dedent) ∧
    (popDedents lo cur stack).1.length + (popDedents lo cur stack).2.length = stack.length ∧
    (stack.getLast? = some 0 → (popDedents lo cur stack).2.getLast? = some 0) := by
  intro stack
  induction stack with
  | nil => exact ⟨by intro t ht; simp [popDedents] at ht, rfl, by intro h; simp at h⟩
  | cons top rest ih =>
    by_cases hlt : cur < top
    · have he : popDedents lo cur (top :: rest) =
          (Token.mk .Dedent ⟨lo + cur, lo + top⟩ :: (popDedents lo cur rest).1,
            (popDedents lo cur rest).2) := by
        simp [popDedents, hlt]
      rw [he]
      refine ⟨?_, ?_, ?_⟩
      · intro t ht
        rcases List.mem_cons.mp ht with rfl | ht'
        · rfl
        · exact ih.1 t ht'
      · simp only [List.length_cons]
        have := ih.2.1
        omega
      · intro h0
        cases hr : rest with
        | nil =>
          subst hr
          simp at h0
          subst h0
          exact absurd hlt (by omega)
        | cons r rs =>
          subst hr
          show (popDedents lo cur (r :: rs)).2.getLast? = some 0
          apply ih.2.2
          simpa [List.getLast?_cons] using h0
    · have he : popDedents lo cur (top :: rest) = ([], top :: rest) := by
        simp [popDedents, hlt]
      rw [he]
      exact ⟨by intro t ht; simp at ht, by simp, fun h => h⟩

theorem emitIndentation_spec (lo ln cur : Nat) (stack : List Nat)
    (h0 : stack.getLast? = some 0) :
    countKind .Newline (emitIndentation lo ln cur stack).1 = 0 ∧
    countKind .Indent (emitIndentation lo ln cur stack).1 + stack.length =
      countKind .Dedent (emitIndentation lo ln cur stack).1 +
        (emitIndentation lo ln cur stack).2.2.length ∧
    (emitIndentation lo ln cur stack).2.2.getLast? = some 0 := by
  have hne : stack ≠ [] := by
    intro h
    rw [h] at h0
    simp at h0
  unfold emitIndentation
  dsimp only
  split_ifs with hgt hlt hmis
  · refine ⟨by simp [countKind], ?_, ?_⟩
    · simp [countKind]
      omega
    · cases stack with
      | nil => exact absurd rfl hne
      | cons s ss => simpa [List.getLast?_cons] using h0
  · have hp := popDedents_spec lo cur stack
    have hd := countKind_all_dedent hp.1
    have hlen := hp.2.1
    refine ⟨by simpa using hd.2.1, ?_, hp.2.2 h0⟩
    dsimp only
    rw [hd.1]
    have h0' := hd.2.2
    omega
  · have hp := popDedents_spec lo cur stack
    have hd := countKind_all_dedent hp.1
    have hlen := hp.2.1
    refine ⟨by simpa using hd.2.1, ?_, hp.2.2 h0⟩
    dsimp only
    rw [hd.1]
    have h0' := hd.2.2
    omega
  · exact ⟨by simp [countKind], by simp [countKind], h0⟩

theorem lexLine_spec (lo ln : Nat) (stack : List Nat) (chunk : List Nat)
    (h0 : stack.getLast? = some 0) :
    (lineSkipped chunk = true →
        (lexLine lo ln stack chunk).1 = [] ∧ (lexLine lo ln stack chunk).2.2 = stack) ∧
    (lineSkipped chunk = false →
      countKind .Newline (lexLine lo ln stack chunk).1 = 1 ∧
      countKind .Indent (lexLine lo ln stack chunk).1 + stack.length =
        countKind .Dedent (lexLine lo ln stack chunk).1 +
          (lexLine lo ln stack chunk).2.2.length) ∧
    (lexLine lo ln stack chunk).2.2.getLast? = some 0 := by
  have hrest : (chunkLine chunk).drop (scanIndent lo ln (chunkLine chunk) 0 0 1).1 =
      lineBody chunk := by
    rw [scanIndent_fst]
    simp only [Nat.zero_add]
    rw [lineBody, dropWhile_eq_drop_len]
  unfold lexLine
  dsimp only
  rw [hrest]
  have hcond : ((List.filter (fun b => !isWsB b) (lineBody chunk)).isEmpty ||
      decide ((lineBody chunk).headD 0 = 35)) = lineSkipped chunk := rfl
  rw [hcond]
  by_cases hsk : lineSkipped chunk = true
  · rw [if_pos hsk]
    exact ⟨fun _ => ⟨rfl, rfl⟩, fun hf => absurd hsk (by simp [hf]), h0⟩
  · rw [if_neg hsk]
    dsimp only
    refine ⟨fun ht => absurd ht hsk, fun _ => ?_, ?_⟩
    · have he := emitIndentation_spec lo ln
        (scanIndent lo ln (chunkLine chunk) 0 0 1).2.1 stack h0
      have hb := countKind_zero_of_not_structural
        (lexRest_not_structural lo ln (chunkLine chunk).length
          (scanIndent lo ln (chunkLine chunk) 0 0 1).1 (lineBody chunk))
      constructor
      · rw [countKind_append, countKind_append, he.1, hb.1]
        simp [countKind]
      · rw [countKind_append, countKind_append, countKind_append, countKind_append]
        have hnl1 : countKind .Indent
            [Token.mk .Newline ⟨lo + (chunkLine chunk).length,
              lo + (chunkLine chunk).length + 1⟩] = 0 := by simp [countKind]
        have hnl2 : countKind .Dedent
            [Token.mk .Newline ⟨lo + (chunkLine chunk).length,
              lo + (chunkLine chunk).length + 1⟩] = 0 := by simp [countKind]
        rw [hnl1, hnl2, hb.2.1, hb.2.2]
        have := he.2.1
        omega
    · exact (emitIndentation_spec lo ln
        (scanIndent lo ln (chunkLine chunk) 0 0 1).2.1 stack h0).2.2

theorem tokenizeLines_spec : ∀ (chunks : List (List Nat)) (stack : List Nat) (li off : Nat),
    stack.getLast? = some 0 →
    countKind .Newline (tokenizeLines stack li off chunks).1 =
      chunks.countP (fun c => !lineSkipped c) ∧
    countKind .Indent (tokenizeLines stack li off chunks).1 + stack.length =
      countKind .Dedent (tokenizeLines stack li off chunks).1 +
        (tokenizeLines stack li off chunks).2.2.1.length ∧
    (tokenizeLines stack li off chunks).2.2.1.getLast? = some 0 := by
  intro chunks
  induction chunks with
  | nil =>
    intro stack li off h0
    exact ⟨rfl, rfl, h0⟩
  | cons chunk chunks ih =>
    intro stack li off h0
    have hl := lexLine_spec off (li + 1) stack chunk h0
    have ih' := ih (lexLine off (li + 1) stack chunk).2.2 (li + 1) (off + chunk.length) hl.2.2
    unfold tokenizeLines
    dsimp only
    rw [countKind_append, countKind_append, countKind_append, List.countP_cons]
    by_cases hsk : lineSkipped chunk = true
    · have hz := (hl.1 hsk).1
      have hst := (hl.1 hsk).2
      rw [hz]
      simp only [countKind_nil, hsk]
      have hlen : (lexLine off (li + 1) stack chunk).2.2.length = stack.length := by
        rw [hst]
      refine ⟨by simpa using ih'.1, ?_, ih'.2.2⟩
      have h2 := ih'.2.1
      omega
    · have hb := hl.2.1 (by simpa using hsk)
      rw [Bool.not_eq_true] at hsk
      refine ⟨?_, ?_, ih'.2.2⟩
      · rw [hb.1, ih'.1]
        simp [hsk]
        omega
      · have h1 := hb.2
        have h2 := ih'.2.1
        omega

theorem finalDedents_spec (off : Nat) : ∀ stack : List Nat,
    (∀ t ∈ finalDedents off stack, t.kind = .Dedent) ∧
    (finalDedents off stack).length = stack.length - 1 := by
  intro stack
  induction stack using finalDedents.induct off with
  | case1 => exact ⟨by intro t ht; simp [finalDedents] at ht, rfl⟩
  | case2 a => exact ⟨by intro t ht; simp [finalDedents] at ht, rfl⟩
  | case3 a b hb ih =>
    cases b with
    | nil => exact absurd rfl hb
    | cons c cs =>
      have he : finalDedents off (a :: c :: cs) =
          Token.mk .Dedent ⟨off, off⟩ :: finalDedents off (c :: cs) := rfl
      constructor
      · intro t ht
        rw [he] at ht
        rcases List.mem_cons.mp ht with rfl | ht'
        · rfl
        · exact ih.1 t ht'
      · rw [he]
        simp only [List.length_cons]
        have := ih.2
        simp only [List.length_cons] at this ⊢
        omega

/-- C4 (amended): for every source on which `tokenize` succeeds, every
non-blank, non-comment-only line of the source produces exactly one
NEWLINE token (the NEWLINE count equals the number of lines that are
neither blank nor comment-only), and the number of INDENT tokens equals
the number of DEDENT tokens over the whole returned token stream. -/
theorem C4_newline_indent_dedent_balance (source : List Nat) (toks : List Token)
    (h : Lexer.tokenize source = .ok toks) :
    countKind .Newline toks =
      (splitInclusiveNl source).countP (fun c => !lineSkipped c) ∧
    countKind .Indent toks = countKind .Dedent toks := by
  unfold Lexer.tokenize at h
  dsimp only at h
  by_cases herr : (tokenizeLines [0] 0 0 (splitInclusiveNl source)).2.1.isEmpty = true
  · rw [if_pos herr] at h
    simp only [Except.ok.injEq] at h
    subst h
    have ht := tokenizeLines_spec (splitInclusiveNl source) [0] 0 0 rfl
    have hf := finalDedents_spec (tokenizeLines [0] 0 0 (splitInclusiveNl source)).2.2.2
      (tokenizeLines [0] 0 0 (splitInclusiveNl source)).2.2.1
    have hfc := countKind_all_dedent hf.1
    have hstack : 1 ≤ (tokenizeLines [0] 0 0 (splitInclusiveNl source)).2.2.1.length := by
      cases hsf : (tokenizeLines [0] 0 0 (splitInclusiveNl source)).2.2.1 with
      | nil =>
        have := ht.2.2
        rw [hsf] at this
        simp at this
      | cons s ss => simp
    constructor
    · rw [countKind_append, countKind_append, ht.1, hfc.2.1]
      simp [countKind]
    · rw [countKind_append, countKind_append, countKind_append, countKind_append]
      have he1 : countKind .Indent [Token.mk .Eof
          (((tokenizeLines [0] 0 0 (splitInclusiveNl source)).1 ++
            finalDedents (tokenizeLines [0] 0 0 (splitInclusiveNl source)).2.2.2
              (tokenizeLines [0] 0 0 (splitInclusiveNl source)).2.2.1).getLast?.map Token.span
            |>.getD ⟨(tokenizeLines [0] 0 0 (splitInclusiveNl source)).2.2.2,
              (tokenizeLines [0] 0 0 (splitInclusiveNl source)).2.2.2⟩)] = 0 := by
        simp [countKind]
      have he2 : countKind .Dedent [Token.mk .Eof
          (((tokenizeLines [0] 0 0 (splitInclusiveNl source)).1 ++
            finalDedents (tokenizeLines [0] 0 0 (splitInclusiveNl source)).2.2.2
              (tokenizeLines [0] 0 0 (splitInclusiveNl source)).2.2.1).getLast?.map Token.span
            |>.getD ⟨(tokenizeLines [0] 0 0 (splitInclusiveNl source)).2.2.2,
              (tokenizeLines [0] 0 0 (splitInclusiveNl source)).2.2.2⟩)] = 0 := by
        simp [countKind]
      rw [he1, he2, hfc.1, hfc.2.2, hf.2]
      have h2 := ht.2.1
      have hb1 : ([0] : List Nat).length = 1 := rfl
      omega
  · rw [if_neg herr] at h
    exact absurd h (by simp)

/-- C4 counterexample: on the comment-only source `"#x\n"` the lexer
succeeds and returns only EOF — the source has one non-blank line (its
body after indentation is `#x`, not whitespace) yet the stream contains
zero NEWLINE tokens, refuting the claim for non-blank comment lines. -/
theorem C4_comment_line_counterexample :
    Lexer.tokenize [35, 120, 10] = .ok [Token.mk .Eof ⟨3, 3⟩] ∧
    (splitInclusiveNl [35, 120, 10]).countP (fun c => !lineIsBlank c) = 1 ∧
    countKind .Newline [Token.mk .Eof ⟨3, 3⟩] = 0 := by
  refine ⟨by decide, by decide, by decide⟩

/-- C4 witness: the amended theorem applied to a concrete source of one
comment line and one blank line (both skipped; no NEWLINE, balanced
INDENT/DEDENT). -/
theorem C4_newline_balance_witness :
    countKind .Newline [Token.mk TokenKind.Eof ⟨4, 4⟩] =
      (splitInclusiveNl [35, 97, 10, 10]).countP (fun c => !lineSkipped c) ∧
    countKind .Indent [Token.mk TokenKind.Eof ⟨4, 4⟩] =
      countKind .Dedent [Token.mk TokenKind.Eof ⟨4, 4⟩] :=
  C4_newline_indent_dedent_balance [35, 97, 10, 10] [Token.mk .Eof ⟨4, 4⟩] (by decide)

/-- C10: a compound assignment `x op= e` (op ∈ {+,-,*,/}) parses to
exactly the AST of `x = x op e`: an Assignment named `x` whose expression
is a Binary node with that operator, `Identifier x` on the left and the
parsed right-hand side on the right; a plain `x = e` stores `e`
unchanged. -/
theorem C10_compound_assignment_desugar
    (ep : List TokenKind → Option (Expr × List TokenKind))
    (name : String) (ts r : List TokenKind) (e : Expr)
    (h : ep ts = some (e, r)) :
    assignment_stmt ep (.Identifier name :: .Equals :: ts) =
      some (.Assignment name e, r) ∧
    assignment_stmt ep (.Identifier name :: .PlusEq :: ts) =
      some (.Assignment name (.Binary .Add (.Identifier name) e), r) ∧
    assignment_stmt ep (.Identifier name :: .MinusEq :: ts) =
      some (.Assignment name (.Binary .Sub (.Identifier name) e), r) ∧
    assignment_stmt ep (.Identifier name :: .StarEq :: ts) =
      some (.Assignment name (.Binary .Mul (.Identifier name) e), r) ∧
    assignment_stmt ep (.Identifier name :: .SlashEq :: ts) =
      some (.Assignment name (.Binary .Div (.Identifier name) e), r) := by
  refine ⟨?_, ?_, ?_, ?_, ?_⟩ <;> simp [assignment_stmt, h]

/-- C10 witness: the desugaring realized with a concrete one-token
expression parser on `x += 2` and `x = 2`. -/
theorem C10_compound_assignment_witness :
    assignment_stmt
      (fun ts => match ts with
        | .Number v :: r => some (Expr.Literal (.Number (numberLiteralValue (strBytes v))), r)
        | _ => none)
      [.Identifier "x", .PlusEq, .Number "2"] =
      some (.Assignment "x" (.Binary .Add (.Identifier "x")
        (Expr.Literal (.Number (.int 2)))), []) ∧
    assignment_stmt
      (fun ts => match ts with
        | .Number v :: r => some (Expr.Literal (.Number (numberLiteralValue (strBytes v))), r)
        | _ => none)
      [.Identifier "x", .Equals, .Number "2"] =
      some (.Assignment "x" (Expr.Literal (.Number (.int 2))), []) := by
  constructor
  · exact (C10_compound_assignment_desugar _ "x" [.Number "2"] [] _ rfl).2.1
  · exact (C10_compound_assignment_desugar _ "x" [.Number "2"] [] _ rfl).1

theorem takeWhile_append_drop_len (p : Nat → Bool) : ∀ l : List Nat,
    l.takeWhile p ++ l.drop (l.takeWhile p).length = l := by
  intro l
  induction l with
  | nil => rfl
  | cons a t ih =>
    by_cases h : p a
    · simp only [List.takeWhile_cons, h, if_true, List.length_cons, List.cons_append,
        List.drop_succ_cons]
      rw [ih]
    · simp [List.takeWhile_cons, h]

theorem mem_takeWhile_prop {p : Nat → Bool} : ∀ {l : List Nat} {x : Nat},
    x ∈ l.takeWhile p → p x = true := by
  intro l
  induction l with
  | nil => intro x hx; simp [List.takeWhile] at hx
  | cons a t ih =>
    intro x hx
    rw [List.takeWhile_cons] at hx
    by_cases h : p a
    · rw [if_pos h] at hx
      rcases List.mem_cons.mp hx with rfl | hx'
      · exact h
      · exact ih hx'
    · rw [if_neg h] at hx
      simp at hx

theorem char_roundtrip {b : Nat} (h : b < 55296) :
    (Char.ofNat b).toNat = b := by
  have hv : b.isValidChar := Or.inl h
  rw [Char.ofNat, dif_pos hv]
  rfl

theorem strBytes_bytesToStr {l : List Nat} (h : ∀ b ∈ l, b < 55296) :
    strBytes (bytesToStr l) = l := by
  unfold strBytes bytesToStr
  simp only [List.map_map]
  rw [List.map_congr_left, List.map_id]
  intro b hb
  exact char_roundtrip (h b hb)

/-- C5: the (spec-modelled) fuller lexer accepts a number as one or more
digits, optionally followed by `.` and more digits, with embedded
underscores permitted inside the lexeme (the lexeme decomposes the input
and consists of a leading digit followed by digits, underscores and at
most the one dot); `literal_expr_parser` strips the underscores at
literal-construction time, so lexing-then-parsing an input like `1_000`
yields a single numeric literal equal to 1000. -/
theorem C5_number_underscores :
    (∀ bytes lexeme rest : List Nat, lexNumberFull bytes = some (lexeme, rest) →
      bytes = lexeme ++ rest ∧
      (∃ b t, lexeme = b :: t ∧ isDigitB b = true) ∧
      (∀ c ∈ lexeme, isDigitB c = true ∨ c = 95 ∨ c = 46)) ∧
    (∀ (F : String → Expr) (lexeme : List Nat),
      (∀ c ∈ lexeme, isDigitB c = true ∨ c = 95 ∨ c = 46) →
      46 ∉ lexeme →
      lexeme.filter (fun c => c ≠ 95) ≠ [] →
      digitsVal (lexeme.filter (fun c => c ≠ 95)) ≤ 2 ^ 63 - 1 →
      literal_expr F (.Number (bytesToStr lexeme)) =
        some (Expr.Literal (.Number (.int (digitsVal (lexeme.filter (fun c => c ≠ 95))))))) ∧
    lexNumberFull [49, 95, 48, 48, 48] = some ([49, 95, 48, 48, 48], []) ∧
    (∀ F : String → Expr, literal_expr F (.Number "1_000") =
      some (Expr.Literal (.Number (.int 1000)))) := by
  refine ⟨?_, ?_, by decide, fun F => rfl⟩
  · intro bytes lexeme rest h
    cases bytes with
    | nil => simp [lexNumberFull] at h
    | cons b rs =>
      rw [lexNumberFull] at h
      by_cases hd : isDigitB b
      · rw [if_pos hd] at h
        dsimp only at h
        have hsplit := takeWhile_append_drop_len (fun c => isDigitB c || c = 95) rs
        split at h
        · next rest2 heq =>
          simp only [Option.some.injEq, Prod.mk.injEq] at h
          obtain ⟨hlex, hrest⟩ := h
          subst hlex
          subst hrest
          have hsplit2 := takeWhile_append_drop_len (fun c => isDigitB c || c = 95) rest2
          refine ⟨?_, ⟨b, _, rfl, hd⟩, ?_⟩
          · have hkey : rs = List.takeWhile (fun c => isDigitB c || c = 95) rs ++
                (46 :: (List.takeWhile (fun c => isDigitB c || c = 95) rest2 ++
                  List.drop
                    (List.takeWhile (fun c => isDigitB c || c = 95) rest2).length rest2)) := by
              conv_lhs => rw [← hsplit]
              rw [heq, hsplit2]
            simp only [List.cons_append, List.append_assoc, List.singleton_append]
            exact congrArg (List.cons b) hkey
          · intro c hc
            rcases List.mem_cons.mp hc with rfl | hc'
            · exact Or.inl hd
            · rcases List.mem_append.mp hc' with hc1 | hc2
              · rcases List.mem_append.mp hc1 with hc3 | hc4
                · rcases Bool.or_eq_true_iff.mp (mem_takeWhile_prop hc3) with h1 | h1
                  · exact Or.inl h1
                  · exact Or.inr (Or.inl (by simpa using h1))
                · simp at hc4
                  subst hc4
                  exact Or.inr (Or.inr rfl)
              · rcases Bool.or_eq_true_iff.mp (mem_takeWhile_prop hc2) with h1 | h1
                · exact Or.inl h1
                · exact Or.inr (Or.inl (by simpa using h1))
        · simp only [Option.some.injEq, Prod.mk.injEq] at h
          obtain ⟨hlex, hrest⟩ := h
          subst hlex
          subst hrest
          refine ⟨?_, ⟨b, _, rfl, hd⟩, ?_⟩
          · simp only [List.cons_append, List.cons.injEq, true_and]
            exact hsplit.symm
          · intro c hc
            rcases List.mem_cons.mp hc with rfl | hc'
            · exact Or.inl hd
            · rcases Bool.or_eq_true_iff.mp (mem_takeWhile_prop hc') with h1 | h1
              · exact Or.inl h1
              · exact Or.inr (Or.inl (by simpa using h1))
      · rw [if_neg hd] at h
        simp at h
  · intro F lexeme hmem hno46 hne hbound
    have hlt : ∀ b ∈ lexeme, b < 55296 := by
      intro c hc
      rcases hmem c hc with h1 | h1 | h1
      · simp [isDigitB] at h1
        omega
      · omega
      · omega
    rw [literal_expr, strBytes_bytesToStr hlt, numberLiteralValue]
    have h46 : 46 ∉ lexeme.filter (fun c => c ≠ 95) := by
      intro hmem46
      exact hno46 (List.mem_of_mem_filter hmem46)
    rw [if_neg h46]
    have hdig : (lexeme.filter (fun c => c ≠ 95)).all isDigitB = true := by
      rw [List.all_eq_true]
      intro c hc
      have hcl := List.mem_of_mem_filter hc
      have hc95 : ¬ c = 95 := by
        have := List.of_mem_filter hc
        simpa using this
      rcases hmem c hcl with h1 | h1 | h1
      · exact h1
      · exact absurd h1 hc95
      · subst h1
        exact absurd hc h46
    rw [parseI64, if_pos ⟨hne, hdig⟩, if_pos hbound]
    rfl

/-- C5 witness: the theorem instantiated at the concrete input `1_000`
(bytes `[49, 95, 48, 48, 48]`). -/
theorem C5_number_underscores_witness :
    ([49, 95, 48, 48, 48] : List Nat) = [49, 95, 48, 48, 48] ++ [] ∧
    (∃ b t, ([49, 95, 48, 48, 48] : List Nat) = b :: t ∧ isDigitB b = true) ∧
    (∀ c ∈ ([49, 95, 48, 48, 48] : List Nat), isDigitB c = true ∨ c = 95 ∨ c = 46) ∧
    literal_expr (fun _ => Expr.Identifier "") (.Number (bytesToStr [49, 95, 48, 48, 48])) =
      some (Expr.Literal (.Number (.int
        (digitsVal (([49, 95, 48, 48, 48] : List Nat).filter (fun c => c ≠ 95)))))) := by
  obtain ⟨ha, hb, _, _⟩ := C5_number_underscores
  have h1 := ha [49, 95, 48, 48, 48] [49, 95, 48, 48, 48] [] (by decide)
  exact ⟨h1.1, h1.2.1, h1.2.2,
    hb (fun _ => Expr.Identifier "") [49, 95, 48, 48, 48] h1.2.2
      (by decide) (by decide) (by decide)⟩

theorem fstringLoop_failed_group (tk : List Char → Option (List Token))
    (ep : List Token → Option Expr) (g : List Char)
    (hne : trimChars g ≠ [])
    (hfail : tk (trimChars g) = none ∨
      ∃ toks, tk (trimChars g) = some toks ∧ ep toks = none) :
    ∀ content : List Char, g ∈ fstringGroups content →
      ∀ acc : List Char,
        FStringPart.Expr (Expr.Identifier (charsToStr (trimChars g))) ∈
          fstringLoop tk ep content acc := by
  intro content
  induction content using fstringGroups.induct with
  | case1 => intro hg; simp [fstringGroups] at hg
  | case2 rest hhead ih =>
    intro hg acc
    rw [fstringGroups, if_pos hhead] at hg
    rw [fstringLoop, if_pos hhead]
    exact ih hg _
  | case3 rest hhead g0 ih =>
    intro hg acc
    rw [fstringGroups, if_neg hhead] at hg
    rcases List.mem_cons.mp hg with rfl | hg'
    · rw [fstringLoop, if_neg hhead]
      have hgne : ¬ List.takeWhile (fun c => decide (c ≠ '}')) rest = [] := by
        intro h0
        rw [h0] at hne
        exact hne rfl
      rcases hfail with hf | ⟨toks, htk, hep⟩
      · simp only [if_neg hgne, if_neg hne, hf]
        simp [List.mem_append]
      · simp only [if_neg hgne, if_neg hne, htk, hep]
        simp [List.mem_append]
    · rw [fstringLoop, if_neg hhead]
      exact List.mem_append_right _ (ih hg' [])
  | case4 rest hhead ih =>
    intro hg acc
    rw [fstringGroups, if_pos hhead] at hg
    rw [fstringLoop, if_pos hhead]
    exact ih hg _
  | case5 rest hhead ih =>
    intro hg acc
    rw [fstringGroups, if_neg hhead] at hg
    rw [fstringLoop, if_neg hhead]
    exact ih hg _
  | case6 c rest hc1 hc2 ih =>
    intro hg acc
    have hgeq : fstringGroups (c :: rest) = fstringGroups rest := by
      rw [fstringGroups]
      · exact hc1
      · exact hc2
    have hleq : fstringLoop tk ep (c :: rest) acc = fstringLoop tk ep rest (acc ++ [c]) := by
      rw [fstringLoop]
      · exact hc1
      · exact hc2
    rw [hgeq] at hg
    rw [hleq]
    exact ih hg _

/-- C9: during f-string parsing, the raw body is scanned for brace groups
(with `{{` and `}}` escaping to literal braces; the scan is captured by
`fstringGroups`), each group's trimmed inner text is re-tokenized and
re-parsed with the expression grammar, and every group whose inner content
fails to tokenize or parse is retained in the resulting f-string as a bare
identifier expression holding the group's trimmed text. -/
theorem C9_fstring_failed_group_retained
    (tk : List Char → Option (List Token)) (ep : List Token → Option Expr)
    (content g : List Char)
    (hg : g ∈ fstringGroups content)
    (hne : trimChars g ≠ [])
    (hfail : tk (trimChars g) = none ∨
      ∃ toks, tk (trimChars g) = some toks ∧ ep toks = none) :
    FStringPart.Expr (Expr.Identifier (charsToStr (trimChars g))) ∈
      fstringLoop tk ep content [] ∧
    ∃ parts, parse_fstring tk ep content = Expr.FString parts ∧
      FStringPart.Expr (Expr.Identifier (charsToStr (trimChars g))) ∈ parts := by
  have hmem := fstringLoop_failed_group tk ep g hne hfail content hg []
  refine ⟨hmem, fstringLoop tk ep content [], ?_, hmem⟩
  have hall : ((fstringLoop tk ep content []).all
      (fun p => match p with | .Text _ => true | _ => false)) = false := by
    by_contra hcon
    rw [Bool.not_eq_false] at hcon
    have hx := List.all_eq_true.mp hcon _ hmem
    simp at hx
  rw [parse_fstring]
  simp [hall]

/-- C9 witness: the theorem applied to the concrete body `{x}` with a
lexer stub that rejects every group, showing the group retained as the
identifier `x`. -/
theorem C9_fstring_witness :
    FStringPart.Expr (Expr.Identifier (charsToStr (trimChars ['x']))) ∈
      fstringLoop (fun _ => none) (fun _ => none) ['{', 'x', '}'] [] ∧
    ∃ parts, parse_fstring (fun _ => none) (fun _ => none) ['{', 'x', '}'] =
      Expr.FString parts ∧
      FStringPart.Expr (Expr.Identifier (charsToStr (trimChars ['x']))) ∈ parts :=
  C9_fstring_failed_group_retained (fun _ => none) (fun _ => none) ['{', 'x', '}'] ['x']
    (by simp [fstringGroups]) (by decide) (Or.inl rfl)

theorem i64wrap_shift (z a : Int) : i64wrap (i64wrap z + a) = i64wrap (z + a) := by
  unfold i64wrap
  omega

theorem metrics_foldl_inv (evs : List MetricEvent) :
    ∀ (S C : Nat) (m : TaskRuntimeMetrics),
      m.spawned = S % 18446744073709551616 →
      m.completed = C % 18446744073709551616 →
      m.waiting = i64wrap ((S : Int) - (C : Int)) →
      (evs.foldl applyEvent m).spawned =
        (S + countSpawn evs) % 18446744073709551616 ∧
      (evs.foldl applyEvent m).completed =
        (C + countCompletion evs) % 18446744073709551616 ∧
      (evs.foldl applyEvent m).waiting =
        i64wrap ((S : Int) + (countSpawn evs : Int) -
          (C : Int) - (countCompletion evs : Int)) := by
  induction evs with
  | nil =>
    intro S C m h1 h2 h3
    refine ⟨by simpa using h1, by simpa using h2, ?_⟩
    simpa [countSpawn, countCompletion] using h3
  | cons e rest ih =>
    intro S C m h1 h2 h3
    cases e with
    | spawn =>
      obtain ⟨g1, g2, g3⟩ := ih (S + 1) C (applyEvent m MetricEvent.spawn)
        (by simp [applyEvent, TaskRuntimeMetrics.record_spawn, u64wrap, h1])
        (by simpa [applyEvent, TaskRuntimeMetrics.record_spawn] using h2)
        (by
          simp only [applyEvent, TaskRuntimeMetrics.record_spawn, h3]
          rw [i64wrap_shift]
          congr 1
          push_cast
          ring)
      refine ⟨?_, ?_, ?_⟩
      · simp only [List.foldl_cons]
        rw [g1]
        simp only [countSpawn]
        omega
      · simp only [List.foldl_cons]
        rw [g2]
        simp only [countCompletion]
      · simp only [List.foldl_cons]
        rw [g3]
        simp only [countSpawn, countCompletion]
        congr 1
        push_cast
        ring
    | completion =>
      obtain ⟨g1, g2, g3⟩ := ih S (C + 1) (applyEvent m MetricEvent.completion)
        (by simpa [applyEvent, TaskRuntimeMetrics.record_completion] using h1)
        (by simp [applyEvent, TaskRuntimeMetrics.record_completion, u64wrap, h2])
        (by
          simp only [applyEvent, TaskRuntimeMetrics.record_completion, h3]
          rw [sub_eq_add_neg, i64wrap_shift]
          congr 1
          push_cast
          ring)
      refine ⟨?_, ?_, ?_⟩
      · simp only [List.foldl_cons]
        rw [g1]
        simp only [countSpawn]
      · simp only [List.foldl_cons]
        rw [g2]
        simp only [countCompletion]
        omega
      · simp only [List.foldl_cons]
        rw [g3]
        simp only [countSpawn, countCompletion]
        congr 1
        push_cast
        ring

/-- C8: the task-runtime metrics keep the accounting invariant
spawned = completed + waiting: record_spawn (called by every spawn_fn)
increments the spawned and waiting counters by one, record_completion
(called at every task completion) increments completed and decrements
waiting by one, so after any run in which every spawned task has completed
(equal spawn and completion counts in the event trace) a snapshot reports
tasks_spawned = tasks_completed and tasks_waiting = 0; in the one-task
scenario the snapshot is spawned = completed = 1, waiting = 0. -/
theorem C8_metrics_accounting (evs : List MetricEvent)
    (hbal : countSpawn evs = countCompletion evs) :
    (∀ m : TaskRuntimeMetrics,
      m.record_spawn.spawned = u64wrap (m.spawned + 1) ∧
      m.record_spawn.waiting = i64wrap (m.waiting + 1) ∧
      m.record_spawn.completed = m.completed) ∧
    (∀ m : TaskRuntimeMetrics,
      m.record_completion.completed = u64wrap (m.completed + 1) ∧
      m.record_completion.waiting = i64wrap (m.waiting - 1) ∧
      m.record_completion.spawned = m.spawned) ∧
    ((runEvents evs).snapshot.tasks_spawned = (runEvents evs).snapshot.tasks_completed ∧
      (runEvents evs).snapshot.tasks_waiting = 0) ∧
    (runEvents [MetricEvent.spawn, MetricEvent.completion]).snapshot =
      ⟨1, 1, 0, 0, 0, 0⟩ := by
  refine ⟨fun m => ⟨rfl, rfl, rfl⟩, fun m => ⟨rfl, rfl, rfl⟩, ?_, by decide⟩
  obtain ⟨g1, g2, g3⟩ := metrics_foldl_inv evs 0 0 TaskRuntimeMetrics.new rfl rfl (by decide)
  constructor
  · show (runEvents evs).spawned = (runEvents evs).completed
    rw [runEvents, g1, g2, hbal]
  · show (max (runEvents evs).waiting 0).toNat = 0
    rw [runEvents, g3, hbal]
    have hz : ((0 : Nat) : Int) + (countCompletion evs : Int) -
        ((0 : Nat) : Int) - (countCompletion evs : Int) = 0 := by ring
    rw [hz]
    decide

/-- C8 witness: the theorem applied to the one-task trace: one spawn followed
by one completion, a balanced run whose snapshot shows equal spawned and
completed counters and zero waiting tasks. -/
theorem C8_metrics_witness :
    countSpawn [MetricEvent.spawn, MetricEvent.completion] =
      countCompletion [MetricEvent.spawn, MetricEvent.completion] ∧
    (runEvents [MetricEvent.spawn, MetricEvent.completion]).snapshot.tasks_spawned =
      (runEvents [MetricEvent.spawn, MetricEvent.completion]).snapshot.tasks_completed ∧
    (runEvents [MetricEvent.spawn, MetricEvent.completion]).snapshot.tasks_waiting = 0 :=
  ⟨by decide,
   (C8_metrics_accounting [MetricEvent.spawn, MetricEvent.completion] (by decide)).2.2.1.1,
   (C8_metrics_accounting [MetricEvent.spawn, MetricEvent.completion] (by decide)).2.2.1.2⟩

/-- C7 counterexample: recv does not return None exactly when all senders
have dropped. On a channel whose senders have all dropped but whose queue
still holds the value 42, recv returns Some 42, not None: disconnection only
surfaces once the queue is drained. -/
theorem C7_recv_disconnected_counterexample :
    (⟨[42], 0⟩ : ChanState Nat).senders = 0 ∧
    TaskChannel.recv (⟨[42], 0⟩ : ChanState Nat) =
      TaskRecvResult.returns (some 42) [] := by decide

/-- C7 amended: recv returns None exactly when every sender has dropped AND
the queue is empty; a queued value is returned (first) regardless of sender
count; on an empty queue with a live sender recv blocks; try_recv returns
None without blocking on an empty queue. -/
theorem C7_channel_recv_amended {α : Type} (s : ChanState α) :
    ((∃ q, TaskChannel.recv s = TaskRecvResult.returns none q) ↔
      s.senders = 0 ∧ s.queue = []) ∧
    (∀ a rest, s.queue = a :: rest →
      TaskChannel.recv s = TaskRecvResult.returns (some a) rest) ∧
    (s.queue = [] → 0 < s.senders → TaskChannel.recv s = TaskRecvResult.blocks) ∧
    (s.queue = [] → TaskChannel.try_recv s = (none, [])) := by
  obtain ⟨q, n⟩ := s
  refine ⟨?_, ?_, ?_, ?_⟩
  · constructor
    · rintro ⟨rest, hr⟩
      cases q with
      | nil =>
        simp only [TaskChannel.recv, crossbeamRecv] at hr
        by_cases hn : n = 0
        · exact ⟨hn, rfl⟩
        · rw [if_neg hn] at hr
          exact absurd hr (by simp)
      | cons a tl =>
        simp [TaskChannel.recv, crossbeamRecv] at hr
    · rintro ⟨hn, hq⟩
      subst hq hn
      exact ⟨[], rfl⟩
  · intro a rest hq
    subst hq
    rfl
  · intro hq hn
    subst hq
    simp only [] at hn
    simp [TaskChannel.recv, crossbeamRecv, Nat.pos_iff_ne_zero.mp hn]
  · intro hq
    subst hq
    simp only [TaskChannel.try_recv, crossbeamTryRecv]
    by_cases hn : n = 0
    · rw [if_pos hn]
    · rw [if_neg hn]

/-- C7 witness: the amended theorem applied to concrete channel states: an
empty disconnected channel where recv returns None, a channel holding 7 with
live senders where recv returns Some 7, an empty channel with live senders
where recv blocks and try_recv returns None. -/
theorem C7_channel_recv_witness :
    (∃ q, TaskChannel.recv (⟨[], 0⟩ : ChanState Nat) = TaskRecvResult.returns none q) ∧
    TaskChannel.recv (⟨[7], 5⟩ : ChanState Nat) = TaskRecvResult.returns (some 7) [] ∧
    TaskChannel.recv (⟨[], 5⟩ : ChanState Nat) = TaskRecvResult.blocks ∧
    TaskChannel.try_recv (⟨[], 5⟩ : ChanState Nat) = (none, []) :=
  ⟨(C7_channel_recv_amended (⟨[], 0⟩ : ChanState Nat)).1.mpr ⟨rfl, rfl⟩,
   (C7_channel_recv_amended (⟨[7], 5⟩ : ChanState Nat)).2.1 7 [] rfl,
   (C7_channel_recv_amended (⟨[], 5⟩ : ChanState Nat)).2.2.1 rfl (by decide),
   (C7_channel_recv_amended (⟨[], 5⟩ : ChanState Nat)).2.2.2 rfl⟩

theorem allExited_step (s u : SchedState) (hall : allExited s = true)
    (hstep : SchedStep s u) : u.ran = s.ran ∧ allExited u = true := by
  have hex : ∀ i ph, s.phases.get? i = some ph → ph = WPhase.exited := by
    intro i ph hph
    have hmem : ph ∈ s.phases := List.get?_mem hph
    exact of_decide_eq_true (List.all_eq_true.mp hall ph hmem)
  cases hstep with
  | spawn => exact ⟨rfl, hall⟩
  | shutdownCall =>
    unfold TaskScheduler.shutdown
    split
    · exact ⟨rfl, hall⟩
    · exact ⟨rfl, hall⟩
  | checkExit i hph hsd => exact absurd (hex i _ hph) (by decide)
  | checkPass i hph hsd => exact absurd (hex i _ hph) (by decide)
  | popLocal i t rest hph hloc => exact absurd (hex i _ hph) (by decide)
  | stealInjector i t batch rest hph hloc hinj => exact absurd (hex i _ hph) (by decide)
  | stealSibling i j t rest hph hloc hne hj => exact absurd (hex i _ hph) (by decide)
  | idle i hph hloc => exact absurd (hex i _ hph) (by decide)

theorem allExited_reach (s u : SchedState) (hall : allExited s = true)
    (hreach : Relation.ReflTransGen SchedStep s u) :
    u.ran = s.ran ∧ allExited u = true := by
  induction hreach with
  | refl => exact ⟨rfl, hall⟩
  | tail hst hstep ih =>
    obtain ⟨hr, he⟩ := ih
    obtain ⟨hr2, he2⟩ := allExited_step _ _ he hstep
    exact ⟨hr2.trans hr, he2⟩

/-- C6 counterexample: after shutdown has been called, a spawn_fn submission
can still be accepted and executed. From a three-worker scheduler, two
workers pass the shutdown check and go searching, then shutdown sets the
flag and enqueues three no-op sentinels. A task spawned at that point (the
flag already true) lands on the injector behind the sentinels; the first
searching worker steals a batch from the injector, displacing two sentinels
into its local deque, and the second searching worker then steals the new
task from the injector and runs it, so its id ends up in the ghost list of
executed tasks. -/
theorem C6_spawn_after_shutdown_counterexample :
    ∃ s1 : SchedState,
      Relation.ReflTransGen SchedStep (SchedState.init 3) s1 ∧
      s1.shutdown = true ∧
      ∃ sf : SchedState,
        Relation.ReflTransGen SchedStep ((TaskScheduler.spawn_fn s1).1) sf ∧
        (TaskScheduler.spawn_fn s1).2 ∈ sf.ran := by
  exact ⟨_,
    Relation.ReflTransGen.tail
      (Relation.ReflTransGen.tail
        (Relation.ReflTransGen.single
          (SchedStep.checkPass (SchedState.init 3) 0 (by decide) (by decide)))
        (SchedStep.checkPass _ 1 (by decide) (by decide)))
      (SchedStep.shutdownCall _),
    by decide,
    _,
    Relation.ReflTransGen.tail
      (Relation.ReflTransGen.single
        (SchedStep.stealInjector _ 0 STask.noop [STask.noop, STask.noop] [STask.real 0]
          (by decide) (by decide) (by decide)))
      (SchedStep.stealInjector _ 1 (STask.real 0) [] [] (by decide) (by decide) (by decide)),
    by decide⟩

/-- C6 amended: spawn_fn never consults the shutdown flag: for every state it
pushes the new task onto the injector, records the spawn in the metrics, and
leaves the flag unchanged, so submissions after shutdown are still enqueued
(and can be executed by a worker that has not yet re-checked the flag, as the
counterexample trace shows); rejection of work happens only through worker
exit: once every worker has exited its loop, no reachable state runs any
further task. -/
theorem C6_shutdown_amended :
    (∀ s : SchedState,
      (TaskScheduler.spawn_fn s).1.injector = s.injector ++ [STask.real s.nextId] ∧
      (TaskScheduler.spawn_fn s).1.metrics = s.metrics.record_spawn ∧
      (TaskScheduler.spawn_fn s).1.shutdown = s.shutdown) ∧
    (∀ s u : SchedState, allExited s = true →
      Relation.ReflTransGen SchedStep s u → u.ran = s.ran) :=
  ⟨fun _ => ⟨rfl, rfl, rfl⟩,
   fun s u hall hreach => (allExited_reach s u hall hreach).1⟩

/-- C6 witness: the amended theorem applied to the one-worker fixture whose
worker has exited: spawn_fn still appends the task to the injector, and
along the step calling shutdown from that state the executed-task list does
not grow. -/
theorem C6_shutdown_witness :
    (TaskScheduler.spawn_fn exitedState1).1.injector =
      exitedState1.injector ++ [STask.real exitedState1.nextId] ∧
    (TaskScheduler.shutdown exitedState1).ran = exitedState1.ran :=
  ⟨(C6_shutdown_amended.1 exitedState1).1,
   C6_shutdown_amended.2 exitedState1 (TaskScheduler.shutdown exitedState1) (by decide)
     (Relation.ReflTransGen.single (SchedStep.shutdownCall exitedState1))⟩
